import Mathlib

/-!
Verification model of the Arcticons-KDE icon generator
(`scripts/generate_icons.py`) and the mapping reconciler
(`scripts/find_missing_mappings.py`).

Strings manipulated by the regular-expression substitutions of the style
transformer are modelled as `List Char`; filesystem paths are modelled as
segment lists (`List String`); the filesystem itself is an association list
from paths to nodes, and every run function additionally returns the ordered
list of filesystem events it performed plus the accumulated list of failed
external-tool invocations.  Fallible steps (the ones that raise uncaught
Python exceptions) return `Except`.
-/

set_option maxRecDepth 100000

namespace Arcticons

/-! ## Character and string helpers -/

/-- Python `\s` on ASCII: space, tab, newline, carriage return, form feed,
vertical tab. -/
def isWsChar (c : Char) : Bool :=
  c == ' ' || c == '\t' || c == '\n' || c == '\r' || c == '\x0b' || c == '\x0c'

/-- Match a literal at the head of a list; return the remainder on success. -/
def stripLit : List Char → List Char → Option (List Char)
  | [], s => some s
  | _ :: _, [] => none
  | c :: cs, d :: ds => if d = c then stripLit cs ds else none

/-- The literal `stroke-width` searched for by both the substring test and
the first regex of the style transformer. -/
def swLit : List Char :=
  ['s', 't', 'r', 'o', 'k', 'e', '-', 'w', 'i', 'd', 't', 'h']

/-- The literal `stroke` that starts the second regex. -/
def strokeLit : List Char := ['s', 't', 'r', 'o', 'k', 'e']

/-- Python substring test `pat in s`. -/
def occursB (pat : List Char) : List Char → Bool
  | [] => pat.isEmpty
  | c :: cs => pat.isPrefixOf (c :: cs) || occursB pat cs

/-- Decimal digits of a line weight, as interpolated by the f-string
`f"{line_weight}px;"`. -/
def lwStr (lw : Nat) : List Char := (Nat.repr lw).toList

/-- Replacement text `<lw>px;` that closes both regex substitutions. -/
def lwPx (lw : Nat) : List Char := lwStr lw ++ "px;".toList

/-- Try to match the regex `(stroke-width\s*:)[^;]+;` at the head of the
input.  On success return the text of capture group 1 together with the
remainder of the input after the final `;`. -/
def matchSWHead (s : List Char) : Option (List Char × List Char) :=
  match stripLit swLit s with
  | none => none
  | some r1 =>
    let ws := r1.takeWhile isWsChar
    match r1.dropWhile isWsChar with
    | ':' :: r3 =>
      let v := r3.takeWhile (fun c => ¬ c = ';')
      match v, r3.dropWhile (fun c => ¬ c = ';') with
      | _ :: _, ';' :: r5 => some (swLit ++ ws ++ [':'], r5)
      | _, _ => none
    | _ => none

/-- Try to match the regex `(stroke\s*:[^;]+;)` at the head of the input.
On success return the whole matched text together with the remainder. -/
def matchStrokeHead (s : List Char) : Option (List Char × List Char) :=
  match stripLit strokeLit s with
  | none => none
  | some r1 =>
    let ws := r1.takeWhile isWsChar
    match r1.dropWhile isWsChar with
    | ':' :: r3 =>
      let v := r3.takeWhile (fun c => ¬ c = ';')
      match v, r3.dropWhile (fun c => ¬ c = ';') with
      | _ :: _, ';' :: r5 => some (strokeLit ++ ws ++ [':'] ++ v ++ [';'], r5)
      | _, _ => none
    | _ => none

/-- Generic left-to-right `re.sub` engine with explicit fuel: at each
position try the matcher; on a match emit the replacement built from the
match data and continue after the match, otherwise keep the character and
advance by one. -/
def scanSubAux (f : List Char → Option (List Char × List Char))
    (out : List Char → List Char) : Nat → List Char → List Char
  | 0, s => s
  | _ + 1, [] => []
  | fuel + 1, c :: cs =>
    match f (c :: cs) with
    | some (g, rest) => out g ++ scanSubAux f out fuel rest
    | none => c :: scanSubAux f out fuel cs

/-- The `re.sub` engine with enough fuel for the whole input. -/
def scanSub (f : List Char → Option (List Char × List Char))
    (out : List Char → List Char) (s : List Char) : List Char :=
  scanSubAux f out s.length s

/-- `re.sub(r"(stroke-width\s*:)[^;]+;", rf"\g<1>{lw}px;", s)`: group 1 is
kept and the value is replaced by `{lw}px;`. -/
def subSW (lw : Nat) (s : List Char) : List Char :=
  scanSub matchSWHead (fun g => g ++ lwPx lw) s

/-- `re.sub(r"(stroke\s*:[^;]+;)", rf"\1stroke-width:{lw}px;", s)`: the
whole match is kept and `stroke-width:{lw}px;` is appended after it. -/
def subIns (lw : Nat) (s : List Char) : List Char :=
  scanSub matchStrokeHead (fun m => m ++ swLit ++ [':'] ++ lwPx lw) s

/-- Left-to-right scanner for Python `str.replace(pat, rep)` with explicit
fuel.  For an empty pattern, Python inserts the replacement between every
pair of characters and at both ends. -/
def replaceAllAux (pat rep : List Char) : Nat → List Char → List Char
  | 0, s => s
  | _ + 1, [] => if pat = [] then rep else []
  | fuel + 1, c :: cs =>
    if pat ≠ [] ∧ pat.isPrefixOf (c :: cs) then
      rep ++ replaceAllAux pat rep fuel ((c :: cs).drop pat.length)
    else if pat = [] then
      rep ++ c :: replaceAllAux pat rep fuel cs
    else
      c :: replaceAllAux pat rep fuel cs

/-- Python `s.replace(pat, rep)`. -/
def replaceAll (pat rep : List Char) (s : List Char) : List Char :=
  replaceAllAux pat rep (s.length + 1) s

/-! ## The style transformer -/

/-- Python float repr of `0.75 * lw` for a nonnegative integer `lw`:
`0.75 * lw` is a multiple of `1/4`, always exactly representable. -/
def dotRadius (lw : Nat) : String :=
  let q := 3 * lw
  match q % 4 with
  | 0 => Nat.repr (q / 4) ++ ".0"
  | 1 => Nat.repr (q / 4) ++ ".25"
  | 2 => Nat.repr (q / 4) ++ ".5"
  | _ => Nat.repr (q / 4) ++ ".75"

/-- Parsed SVG document, as far as the generator inspects it: the circle
radii, the text of the (first) style tag — `none` when there is no style tag
or its text is empty — and the remainder of the document, which the
transformer never touches. -/
structure SvgDoc where
  circles : List String
  styleText : Option (List Char)
  rest : String
deriving DecidableEq

/-- Dot normalization: a circle whose radius is literally `0.75` or `.75`
is rewritten to `str(0.75 * line_weight)`. -/
def transformCircle (lw : Nat) (r : String) : String :=
  if r = "0.75" ∨ r = ".75" then dotRadius lw else r

/-- The stroke-width stage of the style transformer: if the style text
contains `stroke-width` the first regex rewrites the declaration value,
otherwise the second regex appends a width declaration after each stroke
color declaration. -/
def strokeStage (lw : Nat) (t : List Char) : List Char :=
  if occursB swLit t then subSW lw t else subIns lw t

/-- Full style-text transformation: stroke-width stage followed by the
recolor `str.replace`. -/
def transformStyleText (lw : Nat) (srcColor dstColor : List Char)
    (t : List Char) : List Char :=
  replaceAll srcColor dstColor (strokeStage lw t)

/-- One `[section]` of the generator configuration. -/
structure GeneratorEntry where
  name : String
  comment : String
  inherits : String
  overwrite : Bool
  archive : Bool
  srcColor : List Char
  color : List Char
  lineWeight : Nat
  srcPaths : List (List String)
deriving DecidableEq

/-- Whole-document transformation; `none` when the style tag is missing or
empty, in which case the generator prints an error and skips the entry. -/
def transformDoc (cfg : GeneratorEntry) (doc : SvgDoc) : Option SvgDoc :=
  match doc.styleText with
  | none => none
  | some t =>
    some { doc with
      circles := doc.circles.map (transformCircle cfg.lineWeight)
      styleText :=
        some (transformStyleText cfg.lineWeight cfg.srcColor cfg.color t) }

/-! ## Filesystem model -/

/-- A filesystem path, as a list of segments. -/
abbrev FPath := List String

/-- File contents: a parsed SVG document, arbitrary other text, or the
`index.theme` key-value file of which the generator rewrites exactly the
Name/Comment/Inherits keys. -/
inductive Content where
  | svg (doc : SvgDoc)
  | raw (s : String)
  | theme (name comment inherits : String)
deriving DecidableEq

/-- A filesystem node. -/
inductive Node where
  | file (c : Content)
  | link (target : FPath)
  | dir
deriving DecidableEq

/-- The filesystem: an association list from paths to nodes. -/
structure FS where
  entries : List (FPath × Node)
deriving DecidableEq

def FS.lookup (fs : FS) (p : FPath) : Option Node :=
  (fs.entries.find? (fun e => e.1 = p)).map (·.2)

def FS.pathExists (fs : FS) (p : FPath) : Bool :=
  (fs.lookup p).isSome

/-- Store a node at a path.  Writing a node that is already present leaves
the filesystem value unchanged (file contents model state; timestamps are
not modelled — the event trace records that a write happened). -/
def FS.set (fs : FS) (p : FPath) (n : Node) : FS :=
  if fs.lookup p = some n then fs
  else ⟨(p, n) :: fs.entries.filter (fun e => ¬ e.1 = p)⟩

def FS.remove (fs : FS) (p : FPath) : FS :=
  ⟨fs.entries.filter (fun e => ¬ e.1 = p)⟩

/-- `shutil.rmtree`: remove a whole subtree. -/
def FS.rmtree (fs : FS) (p : FPath) : FS :=
  ⟨fs.entries.filter (fun e => ¬ p.isPrefixOf e.1)⟩

/-- Filesystem events performed by a run, in order, together with the
markers the generator logs for an entry (skip, resolution, per-entry
errors).  Only the first five constructors change the filesystem. -/
inductive Event where
  | mkdirE (p : FPath)
  | writeE (p : FPath)
  | linkE (p : FPath) (target : FPath)
  | unlinkE (p : FPath)
  | rmtreeE (p : FPath)
  | skippedE (entry : String)
  | resolveE (entry : String)
  | srcNotFoundE (entry : String)
  | styleMissingE (entry : String)
  | toolFailE (src : FPath)
deriving DecidableEq

/-- Events that modify the filesystem. -/
def Event.isWrite : Event → Bool
  | .mkdirE _ => true
  | .writeE _ => true
  | .linkE _ _ => true
  | .unlinkE _ => true
  | .rmtreeE _ => true
  | _ => false

/-- Events that create an icon artifact (an SVG file or an alias link). -/
def Event.isArtifactWrite : Event → Bool
  | .writeE _ => true
  | .linkE _ _ => true
  | _ => false

/-- Uncaught Python exceptions that abort the run. -/
inductive Err where
  | fileNotFound (p : FPath)
  | parseError (p : FPath)
deriving DecidableEq

/-- `Path.mkdir(parents=True, exist_ok=True)`: an event only when the
directory does not already exist. -/
def FS.mkdirP (fs : FS) (p : FPath) : FS × List Event :=
  if fs.pathExists p then (fs, []) else (fs.set p .dir, [.mkdirE p])

/-! ## Path helpers -/

/-- Append a suffix to the last segment of a path (Python string
interpolation `f"{dest}.svg"` on a path-valued string). -/
def appendLast (suffix : String) : List String → List String
  | [] => [suffix]
  | [x] => [x ++ suffix]
  | x :: xs => x :: appendLast suffix xs

/-- `destination / "scalable"`. -/
def scalRoot (destination : FPath) : FPath := destination ++ ["scalable"]

/-- `destination / "symbolic"`. -/
def symRoot (destination : FPath) : FPath := destination ++ ["symbolic"]

/-- `scalable_root / f"{dest}.svg"`. -/
def scalFile (destination : FPath) (dest : FPath) : FPath :=
  scalRoot destination ++ appendLast ".svg" dest

/-- `symbolic_root / f"{dest}-symbolic.svg"`. -/
def symFile (destination : FPath) (dest : FPath) : FPath :=
  symRoot destination ++ appendLast "-symbolic.svg" dest

/-- Parent directory of `scalable_root / dest` (created before source
resolution). -/
def scalParent (destination : FPath) (dest : FPath) : FPath :=
  (scalRoot destination ++ dest).dropLast

/-- Parent directory of the symbolic artifact. -/
def symParent (destination : FPath) (dest : FPath) : FPath :=
  (symRoot destination ++ dest).dropLast

/-- Drop the longest common prefix of two segment lists. -/
def dropCommon : List String → List String → List String × List String
  | a :: as, b :: bs =>
    if a = b then dropCommon as bs else (a :: as, b :: bs)
  | as, bs => (as, bs)

/-- `target.relative_to(base, walk_up=True)` for two paths rooted at the
same point: climb out of the uncommon part of `base`, then descend. -/
def relWalkUp (target base : FPath) : FPath :=
  let (t, b) := dropCommon target base
  b.map (fun _ => "..") ++ t

/-- Candidate source file `src_dir / f"{name}.svg"`. -/
def srcCand (dir : FPath) (name : String) : FPath := dir ++ [name ++ ".svg"]

/-- `entry.replace('_', '-')`. -/
def hyphenate (s : String) : String :=
  ⟨s.data.map (fun c => if c = '_' then '-' else c)⟩

/-! ## The generator pipeline -/

/-- Source resolution: scan the source directories for `<entry>.svg`; only
when no directory has it, rescan for the hyphenated name.  First hit wins. -/
def resolveSrc (fs : FS) (srcPaths : List FPath) (entry : String) :
    Option FPath :=
  match srcPaths.find? (fun d => fs.pathExists (srcCand d entry)) with
  | some d => some (srcCand d entry)
  | none =>
    match srcPaths.find?
        (fun d => fs.pathExists (srcCand d (hyphenate entry))) with
    | some d => some (srcCand d (hyphenate entry))
    | none => none

/-- Alias fan-out: for each alias path, ensure the parent directory, remove
any occupant, and create a relative link to the primary artifact. -/
def linkAliases (fs : FS) (primary : FPath) : List FPath → FS × List Event
  | [] => (fs, [])
  | ap :: rest =>
    let (f1, e1) := fs.mkdirP ap.dropLast
    let (f2, e2) :=
      if f1.pathExists ap then (f1.remove ap, [Event.unlinkE ap])
      else (f1, [])
    let tgt := relWalkUp primary ap.dropLast
    let (f4, e4) := linkAliases (f2.set ap (.link tgt)) primary rest
    (f4, e1 ++ e2 ++ [Event.linkE ap tgt] ++ e4)

/-- Does the last segment of `p` end in the given character suffix? -/
def lastEndsWith (suf : List Char) (p : FPath) : Bool :=
  suf.isSuffixOf (p.getLastD "").data

/-- The paths matched by `scalable_root.glob(f"{dest}*.0.svg")`: same
directory as the primary artifact, filename starting with the primary's
last segment and ending in `.0.svg`. -/
def globZero (fs : FS) (destination : FPath) (dest : FPath) : List FPath :=
  (fs.entries.map (·.1)).filter fun p =>
    p.dropLast = (scalRoot destination ++ dest).dropLast &&
    (dest.getLastD "").data.isPrefixOf (p.getLastD "").data &&
    lastEndsWith ".0.svg".toList p

/-- Result of one external-tool invocation: success (with the exported
document), or a non-zero exit that may or may not have produced output. -/
inductive ToolResult where
  | ok (out : SvgDoc)
  | fail (wrote : Option SvgDoc)

/-- The external stroke-to-path tool and the SVG minifier, as the
environment of a run.  `present` is `shutil.which` at import time. -/
structure Tool where
  present : Bool
  run : SvgDoc → ToolResult
  minify : Content → Content

/-- Symbolic-variant synthesis for one entry: invoke the tool, record a
failure on non-zero exit, re-open the exported file and minify it in place
(raising `FileNotFoundError` when the file does not exist), delete stray
`*.0.svg` artifacts, then fan the symbolic artifact out to the aliases. -/
def symbolicPhase (tool : Tool) (destination : FPath)
    (dest : FPath) (aliases : List FPath) (srcFile : FPath) (doc : SvgDoc)
    (fs : FS) : Except Err (FS × List Event × List FPath) :=
  if ¬ tool.present then .ok (fs, [], []) else
  let symP := symFile destination dest
  let (fs1, ev1) := fs.mkdirP (symParent destination dest)
  let (fs2, ev2, fails) :=
    match tool.run doc with
    | .ok out => (fs1.set symP (.file (.svg out)), [Event.writeE symP], [])
    | .fail (some o) =>
      (fs1.set symP (.file (.svg o)),
       [Event.toolFailE srcFile, Event.writeE symP], [srcFile])
    | .fail none => (fs1, [Event.toolFailE srcFile], [srcFile])
  match fs2.lookup symP with
  | some (.file c) =>
    let fs3 := fs2.set symP (.file (tool.minify c))
    let zeros := globZero fs3 destination dest
    let fs4 := zeros.foldl FS.remove fs3
    let ev4 := zeros.map Event.unlinkE
    let (fs5, ev5) :=
      linkAliases fs4 symP (aliases.map (symFile destination))
    .ok (fs5, ev1 ++ ev2 ++ [Event.writeE symP] ++ ev4 ++ ev5, fails)
  | _ => .error (.fileNotFound symP)

/-- Process one mapping entry (`process_entry`). -/
def processEntry (tool : Tool) (cfg : GeneratorEntry) (destination : FPath)
    (entry : String) (dests : List FPath) (fs : FS) :
    Except Err (FS × List Event × List FPath) :=
  if dests.all (fun d => fs.pathExists (scalFile destination d)) then
    .ok (fs, [.skippedE entry], [])
  else
    match dests with
    | [] => .ok (fs, [.skippedE entry], [])
    | dest :: aliases =>
      let (fs1, ev1) := fs.mkdirP (scalParent destination dest)
      let ev1 := ev1 ++ [Event.resolveE entry]
      match resolveSrc fs1 cfg.srcPaths entry with
      | none => .ok (fs1, ev1 ++ [.srcNotFoundE entry], [])
      | some srcFile =>
        match fs1.lookup srcFile with
        | some (.file (.svg doc)) =>
          match transformDoc cfg doc with
          | none => .ok (fs1, ev1 ++ [.styleMissingE entry], [])
          | some tdoc =>
            let primary := scalFile destination dest
            let fs2 := fs1.set primary (.file (.svg tdoc))
            let ev2 := [Event.writeE primary]
            let (fs3, ev3) :=
              linkAliases fs2 primary (aliases.map (scalFile destination))
            match symbolicPhase tool destination dest aliases srcFile
                tdoc fs3 with
            | .error e => .error e
            | .ok (fs4, ev4, fails) =>
              .ok (fs4, ev1 ++ ev2 ++ ev3 ++ ev4, fails)
        | _ => .error (.parseError srcFile)

/-- `generate_destination`: process every mapping entry in order. -/
def generateDestination (tool : Tool) (cfg : GeneratorEntry)
    (destination : FPath) (mapping : List (String × List FPath)) (fs : FS) :
    Except Err (FS × List Event × List FPath) :=
  match mapping with
  | [] => .ok (fs, [], [])
  | (entry, dests) :: rest =>
    match processEntry tool cfg destination entry dests fs with
    | .error e => .error e
    | .ok (fs1, ev1, fl1) =>
      match generateDestination tool cfg destination rest fs1 with
      | .error e => .error e
      | .ok (fs2, ev2, fl2) => .ok (fs2, ev1 ++ ev2, fl1 ++ fl2)

/-- `generate_index_theme`: rewrite Name, Comment and Inherits into the
theme metadata file.  Always a write. -/
def generateIndexTheme (cfg : GeneratorEntry) (destination : FPath)
    (fs : FS) : FS × List Event :=
  let p := destination ++ ["index.theme"]
  (fs.set p (.file (.theme cfg.name cfg.comment cfg.inherits)),
   [Event.writeE p])

/-- The fixed list of size-directory names linked to `scalable`. -/
def sizeFolders : List String :=
  ["8x8", "16x16", "16x16@2x", "18x18", "18x18@2x", "22x22", "22x22@2x",
   "24x24", "24x24@2x", "32x32", "32x32@2x", "42x42", "48x48", "48x48@2x",
   "64x64", "64x64@2x", "84x84", "96x96", "128x128"]

/-- Create one size-directory link list recursively, suppressing
`FileExistsError`. -/
def linkSizesGo (destination : FPath) (fs : FS) :
    List String → FS × List Event
  | [] => (fs, [])
  | folder :: rest =>
    let p := destination ++ [folder]
    if fs.pathExists p then linkSizesGo destination fs rest
    else
      let (f1, e1) := linkSizesGo destination (fs.set p (.link ["scalable"])) rest
      (f1, Event.linkE p ["scalable"] :: e1)

/-- Create the size-directory links, suppressing `FileExistsError`. -/
def linkSizes (destination : FPath) (fs : FS) : FS × List Event :=
  linkSizesGo destination fs sizeFolders

/-- Process one configured theme section. -/
def processSection (tool : Tool) (mapping : List (String × List FPath))
    (sect : String) (cfg : GeneratorEntry) (fs : FS) :
    Except Err (FS × List Event × List FPath) :=
  let (fs0, ev0) :=
    if cfg.overwrite then (fs.rmtree [sect], [Event.rmtreeE [sect]])
    else (fs, [])
  match generateDestination tool cfg [sect] mapping fs0 with
  | .error e => .error e
  | .ok (fs1, ev1, fl1) =>
    let (fs2, ev2) := generateIndexTheme cfg [sect] fs1
    let (fs3, ev3) := linkSizes [sect] fs2
    .ok (fs3, ev0 ++ ev1 ++ ev2 ++ ev3, fl1)

/-- `main`: when the external tool is not discoverable, log a warning and
return before generating anything; otherwise process every configured
section and report the accumulated failure list. -/
def mainRun (tool : Tool) (config : List (String × GeneratorEntry))
    (mapping : List (String × List FPath)) (fs : FS) :
    Except Err (FS × List Event × List FPath) :=
  if ¬ tool.present then .ok (fs, [], [])
  else go config fs
where
  go : List (String × GeneratorEntry) → FS →
      Except Err (FS × List Event × List FPath)
    | [], fs => .ok (fs, [], [])
    | (sect, cfg) :: rest, fs =>
      match processSection tool mapping sect cfg fs with
      | .error e => .error e
      | .ok (fs1, ev1, fl1) =>
        match go rest fs1 with
        | .error e => .error e
        | .ok (fs2, ev2, fl2) => .ok (fs2, ev1 ++ ev2, fl1 ++ fl2)

/-! ## The mapping reconciler (`find_missing_mappings.py`) -/

/-- `Path(name).stem`: the final path component without its last suffix. -/
def stemOf (s : String) : String :=
  let r := s.data.reverse
  let ext := r.takeWhile (fun c => ¬ c = '.')
  match r.dropWhile (fun c => ¬ c = '.') with
  | '.' :: rest => if rest = [] then s else ⟨rest.reverse⟩
  | _ => ⟨ext.reverse⟩

/-- Canonical name of one discovered artifact: the stem of the link target
when `os.readlink` succeeds, the artifact's own stem otherwise (also for
anything that cannot be classified as a link). -/
def canonicalName (p : FPath) (target : Option FPath) : String :=
  match target with
  | some t => stemOf (t.getLastD "")
  | none => stemOf (p.getLastD "")

/-- Python `str.removesuffix`. -/
def removeSuffixStr (suf s : String) : String :=
  if suf.data.isSuffixOf s.data then
    ⟨s.data.take (s.data.length - suf.data.length)⟩
  else s

/-- Strip the `arcticons-light/scalable/` prefix (the first two segments of
every glob hit) and the `.svg` suffix. -/
def formattedPath (p : FPath) : FPath :=
  let q := p.drop 2
  q.dropLast ++ [removeSuffixStr ".svg" (q.getLastD "")]

/-- Append a value to the group of a key, creating the group at the end on
first sight (Python dict insertion order). -/
def addToMap (m : List (String × List FPath)) (k : String) (v : FPath) :
    List (String × List FPath) :=
  if m.any (fun e => e.1 = k) then
    m.map (fun e => if e.1 = k then (e.1, e.2 ++ [v]) else e)
  else
    m ++ [(k, [v])]

/-- The reconciler: group the theme-relative, extension-stripped path of
every discovered vector artifact by its canonical name, in discovery
order. -/
def linkMap (files : List (FPath × Option FPath)) :
    List (String × List FPath) :=
  files.foldl
    (fun m f => addToMap m (canonicalName f.1 f.2) (formattedPath f.1)) []

/-- Group lookup in the reconciler output (empty list when absent). -/
def lookupGroup (k : String) (m : List (String × List FPath)) :
    List FPath :=
  ((m.find? (fun e => e.1 = k)).map (·.2)).getD []

/-! ## Concrete fixtures used to evaluate the model -/

instance {ε α : Type} [DecidableEq ε] [DecidableEq α] :
    DecidableEq (Except ε α) := fun a b =>
  match a, b with
  | .ok x, .ok y =>
    if h : x = y then .isTrue (by rw [h]) else .isFalse (by simp [h])
  | .error x, .error y =>
    if h : x = y then .isTrue (by rw [h]) else .isFalse (by simp [h])
  | .ok _, .error _ => .isFalse (by simp)
  | .error _, .ok _ => .isFalse (by simp)

/-- The source color token of the spec's recolor test. -/
def src6 : List Char := ['#', '1', '1', '1', '1', '1', '1']

/-- The destination color token of the spec's recolor test. -/
def rep6 : List Char := ['#', 'f', 'f', '0', '0', '0', '0']

/-- The tail of `src6`. -/
def ones6 : List Char := ['1', '1', '1', '1', '1', '1']

/-- A source document with a stroke color and no stroke width. -/
def exDoc : SvgDoc :=
  { circles := ["0.75"]
    styleText := some "fill:none;stroke:#111111;".toList
    rest := "body" }

/-- A one-theme configuration entry reading sources from `icons/`. -/
def exCfg : GeneratorEntry :=
  { name := "Arcticons Light"
    comment := "Arcticons for KDE"
    inherits := "breeze"
    overwrite := false
    archive := false
    srcColor := "#111111".toList
    color := "#000000".toList
    lineWeight := 2
    srcPaths := [["icons"]] }

/-- The transform of `exDoc` under `exCfg`. -/
def exDocT : SvgDoc := (transformDoc exCfg exDoc).getD ⟨[], none, ""⟩

/-- Initial filesystem holding one source icon. -/
def exFS : FS := ⟨[(["icons", "a.svg"], .file (.svg exDoc))]⟩

/-- A source document without a style tag (or with an empty one). -/
def exFSNoStyle : FS :=
  ⟨[(["icons", "b.svg"],
     .file (.svg { circles := [], styleText := none, rest := "" }))]⟩

/-- An external tool that is present and always succeeds, exporting the
input unchanged; minification is the identity. -/
def toolOkId : Tool := { present := true, run := fun d => .ok d, minify := id }

/-- An external tool that is present but always exits non-zero without
producing an output file. -/
def toolFailNoOutput : Tool :=
  { present := true, run := fun _ => .fail none, minify := id }

/-- An external tool that always exits non-zero but leaves its output
behind. -/
def toolFailWrote : Tool :=
  { present := true, run := fun d => .fail (some d), minify := id }

/-- An external tool that is not discoverable. -/
def toolAbsent : Tool :=
  { present := false, run := fun d => .ok d, minify := id }

/-- The reconciler scan of the claim's example tree: `a/foo.svg` is a
regular file, `b/bar.svg` is a link whose target resolves to `foo`. -/
def exScan : List (FPath × Option FPath) :=
  [(["arcticons-light", "scalable", "a", "foo.svg"], none),
   (["arcticons-light", "scalable", "b", "bar.svg"],
    some ["..", "a", "foo.svg"])]

/-- The character suffix `.0`. -/
def dot0 : List Char := ['.', '0']

/-- The character suffix `.0.svg` matched by the stray-artifact glob. -/
def dot0svg : List Char := ['.', '0', '.', 's', 'v', 'g']

/-- Sanity conditions on a mapping destination path: non-empty, its
filename does not end in `.0` (so the rendered artifact cannot collide
with the `*.0.svg` stray-artifact cleanup), and no directory segment ends
in `.0.svg`. -/
def destOk (d : FPath) : Bool :=
  !(d.isEmpty) && !(dot0.isSuffixOf (d.getLastD "").data) &&
    d.all (fun seg => !(dot0svg.isSuffixOf seg.data))

/-- A mapping entry is settled in a filesystem when re-processing it can
do no work: either every destination artifact exists (the skip check
fires), or the entry's primary parent directory exists and resolution
fails, or it exists and the resolved source parses to a document with no
style text. -/
def EntrySettled (cfg : GeneratorEntry) (destination : FPath) (fs : FS)
    (dests : List FPath) (entry : String) : Prop :=
  (∀ d ∈ dests, fs.pathExists (scalFile destination d) = true) ∨
  (∃ dest aliases, dests = dest :: aliases ∧
    fs.pathExists (scalParent destination dest) = true ∧
    (resolveSrc fs cfg.srcPaths entry = none ∨
     (∃ sp doc, resolveSrc fs cfg.srcPaths entry = some sp ∧
       fs.lookup sp = some (.file (.svg doc)) ∧ doc.styleText = none)))

/-- A configured section is settled in a filesystem when a further
incremental run over it can only rewrite `index.theme`: every mapping
entry is settled, the metadata file already holds this section's three
keys, and every size-directory link exists. -/
def SectionSettled (mapping : List (String × List FPath)) (sect : String)
    (cfg : GeneratorEntry) (fs : FS) : Prop :=
  (∀ md ∈ mapping, EntrySettled cfg [sect] fs md.2 md.1) ∧
  fs.lookup ([sect] ++ ["index.theme"]) =
    some (.file (.theme cfg.name cfg.comment cfg.inherits)) ∧
  (∀ folder ∈ sizeFolders, fs.pathExists ([sect] ++ [folder]) = true)

/-- The filesystem produced by a first generator run on the fixtures. -/
def c3run1fs : FS :=
  match mainRun toolOkId [("t", exCfg)] [("a", [["a"]])] exFS with
  | .ok (f, _, _) => f
  | .error _ => exFS

/-- The events of that first run. -/
def c3run1ev : List Event :=
  match mainRun toolOkId [("t", exCfg)] [("a", [["a"]])] exFS with
  | .ok (_, ev, _) => ev
  | .error _ => []

/-- The events of a second generator run over the first run's output. -/
def c3run2ev : List Event :=
  match mainRun toolOkId [("t", exCfg)] [("a", [["a"]])] c3run1fs with
  | .ok (_, ev, _) => ev
  | .error _ => []

/-! ## C1: behavior when the external tool is absent -/

/-- C1: the claim (and §4.4 of the spec) says that an absent external tool
only skips symbolic-variant generation and a vector-only theme is still
produced.  The code instead returns from `main` immediately after logging
the warning, so nothing at all is generated: on a configuration, mapping
and source tree for which a present tool yields a full theme (second
conjunct: the primary vector artifact is rendered), the absent-tool run
leaves the filesystem untouched and performs zero events (first conjunct).
This contradicts the spec, the warning message itself ("not creating
symbolic icons"), and the dead degraded-mode branch inside
`process_entry`. -/
theorem c1_absent_tool_aborts_entire_run :
    mainRun toolAbsent [("t", exCfg)] [("a", [["a"]])] exFS =
      .ok (exFS, [], []) ∧
    (match mainRun toolOkId [("t", exCfg)] [("a", [["a"]])] exFS with
      | .ok (f, _, _) => f.pathExists ["t", "scalable", "a.svg"]
      | .error _ => false) = true := by
  constructor
  · decide
  · decide

/-! ## C2: behavior when the external tool exits non-zero -/

/-- C2: the claim says a non-zero tool exit is always caught and the run
proceeds to the next entry, never aborting.  When the failing invocation
leaves no output file, the code indeed catches `CalledProcessError` and
records the failure, but then unconditionally reopens the missing export
for minification and the resulting `FileNotFoundError` aborts the run
(first conjunct).  When the failed invocation did leave output behind, the
run proceeds and the failing source path is accumulated and reported at end
of run (second conjunct), which is the intended behavior the claim
describes. -/
theorem c2_tool_failure_without_output_aborts :
    mainRun toolFailNoOutput [("t", exCfg)] [("a", [["a"]])] exFS =
      .error (.fileNotFound ["t", "symbolic", "a-symbolic.svg"]) ∧
    (match mainRun toolFailWrote [("t", exCfg)] [("a", [["a"]])] exFS with
      | .ok (_, _, fl) => fl
      | .error _ => []) = [["icons", "a.svg"]] := by
  constructor
  · decide
  · decide

/-! ## C9: the skip check consults only the scalable tree -/

/-- C9: the skip-if-complete check consults only vector artifacts under
`scalable/`: whenever the primary and every alias vector file exist, the
entry is skipped outright — the filesystem is returned unchanged with a
lone skip marker — even when every symbolic variant of the entry is
missing, so a missing symbolic variant alone never triggers
regeneration. -/
theorem c9_skip_ignores_symbolic (tool : Tool) (cfg : GeneratorEntry)
    (destination : FPath) (entry : String) (dests : List FPath) (fs : FS)
    (hsym : ∀ d ∈ dests, fs.pathExists (symFile destination d) = false)
    (hall : dests.all (fun d => fs.pathExists (scalFile destination d)) = true) :
    processEntry tool cfg destination entry dests fs =
      .ok (fs, [.skippedE entry], []) := by
  unfold processEntry
  simp [hall]

/-- Witness for C9: a tree holding only the scalable artifacts of the entry
(primary `a` and alias `b`), with no symbolic tree at all, is skipped. -/
theorem c9_skip_ignores_symbolic_witness :
    processEntry toolOkId exCfg ["t"] "a" [["a"], ["b"]]
      (⟨[(["t", "scalable", "a.svg"], .file (.raw "p")),
         (["t", "scalable", "b.svg"], .link ["a.svg"])]⟩ : FS) =
      .ok ((⟨[(["t", "scalable", "a.svg"], .file (.raw "p")),
              (["t", "scalable", "b.svg"], .link ["a.svg"])]⟩ : FS),
           [.skippedE "a"], []) :=
  c9_skip_ignores_symbolic toolOkId exCfg ["t"] "a" [["a"], ["b"]] _
    (by decide) (by decide)

/-! ## C8: the mapping reconciler -/

theorem lookupGroup_nil (k : String) : lookupGroup k [] = [] := by
  simp [lookupGroup]

theorem lookupGroup_cons (e : String × List FPath)
    (m : List (String × List FPath)) (k : String) :
    lookupGroup k (e :: m) = if e.1 = k then e.2 else lookupGroup k m := by
  by_cases h : e.1 = k
  · simp [lookupGroup, List.find?_cons_of_pos, h]
  · simp [lookupGroup, List.find?_cons_of_neg, h]

theorem addToMap_present (m : List (String × List FPath)) (k : String)
    (v : FPath) (h : m.any (fun e => e.1 = k) = true) :
    addToMap m k v =
      m.map (fun e => if e.1 = k then (e.1, e.2 ++ [v]) else e) := by
  simp [addToMap, h]

theorem addToMap_absent (m : List (String × List FPath)) (k : String)
    (v : FPath) (h : m.any (fun e => e.1 = k) = false) :
    addToMap m k v = m ++ [(k, [v])] := by
  simp [addToMap, h]

theorem lookupGroup_addToMap_self (m : List (String × List FPath))
    (k : String) (v : FPath) :
    lookupGroup k (addToMap m k v) = lookupGroup k m ++ [v] := by
  induction m with
  | nil =>
    rw [addToMap_absent _ _ _ (by simp)]
    simp [lookupGroup_cons, lookupGroup_nil]
  | cons e m ih =>
    by_cases he : e.1 = k
    · rw [addToMap_present _ _ _ (by simp [List.any_cons, he])]
      rw [List.map_cons, if_pos he, lookupGroup_cons, lookupGroup_cons]
      simp [he]
    · rcases hm : m.any (fun x => x.1 = k) with _ | _
      · rw [addToMap_absent _ _ _ (by simp [List.any_cons, he, hm])]
        rw [List.cons_append, lookupGroup_cons, lookupGroup_cons,
          if_neg he, if_neg he, ← addToMap_absent _ _ _ hm]
        exact ih
      · rw [addToMap_present _ _ _ (by simp [List.any_cons, hm])]
        rw [List.map_cons, if_neg he, lookupGroup_cons, lookupGroup_cons,
          if_neg he, if_neg he, ← addToMap_present _ _ _ hm]
        exact ih

theorem map_noMatchingKey (m : List (String × List FPath)) (kx : String)
    (v : FPath) (h : m.any (fun e => e.1 = kx) = false) :
    m.map (fun e => if e.1 = kx then (e.1, e.2 ++ [v]) else e) = m := by
  induction m with
  | nil => rfl
  | cons e m ih =>
    simp only [List.any_cons, Bool.or_eq_false_iff, decide_eq_false_iff_not]
      at h
    rw [List.map_cons, if_neg h.1, ih h.2]

theorem lookupGroup_addToMap_ne (m : List (String × List FPath))
    (k kx : String) (v : FPath) (h : ¬ kx = k) :
    lookupGroup k (addToMap m kx v) = lookupGroup k m := by
  induction m with
  | nil =>
    rw [addToMap_absent _ _ _ (by simp)]
    simp [lookupGroup_cons, lookupGroup_nil, h]
  | cons e m ih =>
    have hek : e.1 = kx → ¬ e.1 = k := fun h1 h2 => h (h1 ▸ h2)
    rcases hm : (e :: m).any (fun x => x.1 = kx) with _ | _
    · have hm2 : m.any (fun x => x.1 = kx) = false := by
        rcases List.any_eq_false.mp hm with h1
        exact List.any_eq_false.mpr (fun x hx => h1 x (List.mem_cons_of_mem _ hx))
      rw [addToMap_absent _ _ _ hm, List.cons_append, lookupGroup_cons,
        lookupGroup_cons, ← addToMap_absent _ _ _ hm2]
      by_cases he : e.1 = k
      · simp [he]
      · simp only [if_neg he]
        exact ih
    · rw [addToMap_present _ _ _ hm, List.map_cons]
      by_cases hex : e.1 = kx
      · rw [if_pos hex, lookupGroup_cons, lookupGroup_cons]
        simp only [if_neg (hek hex)]
        rcases hm2 : m.any (fun x => x.1 = kx) with _ | _
        · rw [map_noMatchingKey _ _ _ hm2]
        · rw [← addToMap_present _ _ _ hm2]
          exact ih
      · rw [if_neg hex, lookupGroup_cons, lookupGroup_cons]
        by_cases he : e.1 = k
        · simp [he]
        · simp only [if_neg he]
          rcases hm2 : m.any (fun x => x.1 = kx) with _ | _
          · have : (e :: m).any (fun x => x.1 = kx) = false := by
              simp [List.any_cons, hex, hm2]
            rw [this] at hm
            cases hm
          · rw [← addToMap_present _ _ _ hm2]
            exact ih

theorem lookupGroup_foldl (files : List (FPath × Option FPath))
    (m : List (String × List FPath)) (k : String) :
    lookupGroup k (files.foldl
        (fun m f => addToMap m (canonicalName f.1 f.2) (formattedPath f.1)) m) =
      lookupGroup k m ++
        ((files.filter (fun f => canonicalName f.1 f.2 == k)).map
          (fun f => formattedPath f.1)) := by
  induction files generalizing m with
  | nil => simp
  | cons f files ih =>
    simp only [List.foldl_cons]
    rw [ih]
    by_cases hc : canonicalName f.1 f.2 = k
    · rw [hc, lookupGroup_addToMap_self]
      simp [List.filter_cons, hc]
    · rw [lookupGroup_addToMap_ne _ _ _ _ hc]
      simp [List.filter_cons, hc]

/-- C8: the reconciler's canonical name is the link target's filename stem
for a link and the path's own stem otherwise, and the groups collect the
theme-relative, extension-stripped paths of exactly the artifacts with that
canonical name, in discovery order (first conjunct, for every scan and
every name); on the example tree where `foo` maps to `a/foo` and `b/bar`,
the output is a single group for `foo` holding both paths (second
conjunct). -/
theorem c8_reconciler_groups_by_canonical_name :
    (∀ (files : List (FPath × Option FPath)) (k : String),
      lookupGroup k (linkMap files) =
        ((files.filter (fun f => canonicalName f.1 f.2 == k)).map
          (fun f => formattedPath f.1))) ∧
    linkMap exScan = [("foo", [["a", "foo"], ["b", "bar"]])] := by
  refine ⟨fun files k => ?_, by decide⟩
  have := lookupGroup_foldl files [] k
  simpa [linkMap, lookupGroup] using this

/-! ## C10: directory creation precedes source resolution -/

theorem mkdirP_events (fs : FS) (p : FPath) :
    (fs.mkdirP p).2 = [] ∨ (fs.mkdirP p).2 = [.mkdirE p] := by
  by_cases h : fs.pathExists p = true
  · left
    simp [FS.mkdirP, h]
  · right
    simp [FS.mkdirP, h]

/-- C10: for an entry that is not skipped, the parent directory of the
primary destination under `scalable/` is created before source resolution
is attempted: when the parent does not yet exist, the run's event trace
starts with the mkdir and then the resolution marker, and an entry that
ends in source-not-found (first conjunct) or style-block-missing (second
conjunct) terminates with exactly that newly created directory added to
the filesystem and no SVG artifact written. -/
theorem c10_parent_dir_created_before_resolution (tool : Tool)
    (cfg : GeneratorEntry) (destination : FPath) (entry : String)
    (dest : FPath) (aliases : List FPath) (fs : FS)
    (hall : (dest :: aliases).all
      (fun d => fs.pathExists (scalFile destination d)) = false)
    (hpar : fs.pathExists (scalParent destination dest) = false) :
    (resolveSrc (fs.set (scalParent destination dest) .dir) cfg.srcPaths
        entry = none →
      processEntry tool cfg destination entry (dest :: aliases) fs =
        .ok (fs.set (scalParent destination dest) .dir,
             [.mkdirE (scalParent destination dest), .resolveE entry,
              .srcNotFoundE entry], [])) ∧
    (∀ sp doc,
      resolveSrc (fs.set (scalParent destination dest) .dir) cfg.srcPaths
        entry = some sp →
      (fs.set (scalParent destination dest) .dir).lookup sp =
        some (.file (.svg doc)) →
      doc.styleText = none →
      processEntry tool cfg destination entry (dest :: aliases) fs =
        .ok (fs.set (scalParent destination dest) .dir,
             [.mkdirE (scalParent destination dest), .resolveE entry,
              .styleMissingE entry], [])) := by
  constructor
  · intro hres
    simp only [processEntry, hall, Bool.false_eq_true, if_false,
      FS.mkdirP, hpar, hres]
    simp
  · intro sp doc hres hlook hstyle
    simp only [processEntry, hall, Bool.false_eq_true, if_false,
      FS.mkdirP, hpar, hres, hlook, transformDoc, hstyle]
    simp

/-- Witness for C10: an empty filesystem, entry `a` mapped to `a` with
no source directories. -/
theorem c10_parent_dir_created_before_resolution_witness :
    processEntry toolOkId exCfg ["t"] "missing" [["missing"]] (⟨[]⟩ : FS) =
      .ok ((⟨[]⟩ : FS).set ["t", "scalable"] .dir,
           [.mkdirE ["t", "scalable"], .resolveE "missing",
            .srcNotFoundE "missing"], []) :=
  (c10_parent_dir_created_before_resolution toolOkId exCfg ["t"] "missing"
    ["missing"] [] ⟨[]⟩ (by decide) (by decide)).1 (by decide)

/-! ## C7: two-pass source resolution -/

theorem find?_eq_none_of_all {α : Type} (p : α → Bool) (l : List α)
    (h : ∀ x ∈ l, p x = false) : l.find? p = none :=
  List.find?_eq_none.mpr (fun x hx => by simp [h x hx])

/-- C7: source resolution scans the ordered source directories for
`<name>.svg` (first conjunct: the first directory holding the direct name
wins, regardless of later directories or hyphen candidates), repeats the
scan with underscores replaced by hyphens only when no directory yields a
direct hit (second conjunct), returns nothing when neither pass matches
(third conjunct), and in that case the entry is skipped non-fatally with
no artifact written — the run returns successfully having performed no
write or link event beyond the possible directory creation, leaving every
file of the filesystem as it was (fourth conjunct). -/
theorem c7_two_pass_resolution :
    (∀ (fs : FS) (l1 l2 : List FPath) (d : FPath) (entry : String),
      (∀ d2 ∈ l1, fs.pathExists (srcCand d2 entry) = false) →
      fs.pathExists (srcCand d entry) = true →
      resolveSrc fs (l1 ++ d :: l2) entry = some (srcCand d entry)) ∧
    (∀ (fs : FS) (l1 l2 : List FPath) (d : FPath) (entry : String),
      (∀ d2 ∈ l1 ++ d :: l2, fs.pathExists (srcCand d2 entry) = false) →
      (∀ d2 ∈ l1, fs.pathExists (srcCand d2 (hyphenate entry)) = false) →
      fs.pathExists (srcCand d (hyphenate entry)) = true →
      resolveSrc fs (l1 ++ d :: l2) entry =
        some (srcCand d (hyphenate entry))) ∧
    (∀ (fs : FS) (srcPaths : List FPath) (entry : String),
      (∀ d ∈ srcPaths, fs.pathExists (srcCand d entry) = false) →
      (∀ d ∈ srcPaths, fs.pathExists (srcCand d (hyphenate entry)) = false) →
      resolveSrc fs srcPaths entry = none) ∧
    (∀ (tool : Tool) (cfg : GeneratorEntry) (destination : FPath)
        (entry : String) (dest : FPath) (aliases : List FPath) (fs : FS),
      (dest :: aliases).all
        (fun d => fs.pathExists (scalFile destination d)) = false →
      resolveSrc (fs.mkdirP (scalParent destination dest)).1 cfg.srcPaths
        entry = none →
      processEntry tool cfg destination entry (dest :: aliases) fs =
        .ok ((fs.mkdirP (scalParent destination dest)).1,
             (fs.mkdirP (scalParent destination dest)).2 ++
               [.resolveE entry, .srcNotFoundE entry], []) ∧
      ((fs.mkdirP (scalParent destination dest)).2 ++
        [Event.resolveE entry, Event.srcNotFoundE entry]).filter
          Event.isArtifactWrite = []) := by
  refine ⟨?_, ?_, ?_, ?_⟩
  · intro fs l1 l2 d entry hmiss hhit
    rw [resolveSrc, List.find?_append, find?_eq_none_of_all _ _ hmiss,
      Option.none_or, List.find?_cons_of_pos _ (by simp [hhit])]
  · intro fs l1 l2 d entry hmiss1 hmiss2 hhit
    rw [resolveSrc, find?_eq_none_of_all _ _ hmiss1]
    rw [List.find?_append, find?_eq_none_of_all _ _ hmiss2,
      Option.none_or, List.find?_cons_of_pos _ (by simp [hhit])]
  · intro fs srcPaths entry hmiss1 hmiss2
    rw [resolveSrc, find?_eq_none_of_all _ _ hmiss1,
      find?_eq_none_of_all _ _ hmiss2]
  · intro tool cfg destination entry dest aliases fs hall hres
    constructor
    · simp only [processEntry, hall, Bool.false_eq_true, if_false, hres]
      simp
    · rcases mkdirP_events fs (scalParent destination dest) with h | h <;>
        simp [h, Event.isArtifactWrite]

/-- Witness for C7: concrete instances of all four conjuncts — a direct
hit in the second directory, a hyphen hit after a fully missed direct
pass, a fully missed resolution, and the no-artifact outcome of a missed
resolution inside `processEntry`. -/
theorem c7_two_pass_resolution_witness :
    resolveSrc exFS [["empty"], ["icons"]] "a" =
      some ["icons", "a.svg"] ∧
    resolveSrc exFS [["icons"]] "a_x" = none ∧
    processEntry toolOkId exCfg ["t"] "zz" [["zz"]] exFS =
      .ok ((exFS.mkdirP (scalParent ["t"] ["zz"])).1,
           (exFS.mkdirP (scalParent ["t"] ["zz"])).2 ++
             [.resolveE "zz", .srcNotFoundE "zz"], []) := by
  refine ⟨?_, ?_, ?_⟩
  · exact c7_two_pass_resolution.1 exFS [["empty"]] [] ["icons"] "a"
      (by decide) (by decide)
  · exact (c7_two_pass_resolution.2.2.1) exFS [["icons"]] "a_x"
      (by decide) (by decide)
  · exact ((c7_two_pass_resolution.2.2.2) toolOkId exCfg ["t"] "zz" ["zz"]
      [] exFS (by decide) (by decide)).1

/-! ## Basic filesystem lemmas -/

theorem find?_filter_key (entries : List (FPath × Node)) (p q : FPath)
    (h : ¬ p = q) :
    (entries.filter (fun e => ¬ e.1 = q)).find? (fun e => e.1 = p) =
      entries.find? (fun e => e.1 = p) := by
  induction entries with
  | nil => rfl
  | cons e es ih =>
    by_cases he : e.1 = q
    · have hep : ¬ (e.1 = p) := fun hc => h (hc ▸ he)
      rw [List.filter_cons_of_neg (by simp [he]),
        List.find?_cons_of_neg _ (by simp [hep])]
      exact ih
    · rw [List.filter_cons_of_pos (by simp [he])]
      by_cases hep : e.1 = p
      · rw [List.find?_cons_of_pos _ (by simp [hep]),
          List.find?_cons_of_pos _ (by simp [hep])]
      · rw [List.find?_cons_of_neg _ (by simp [hep]),
          List.find?_cons_of_neg _ (by simp [hep])]
        exact ih

theorem FS.lookup_set_self (fs : FS) (p : FPath) (n : Node) :
    (fs.set p n).lookup p = some n := by
  by_cases h : fs.lookup p = some n
  · rw [FS.set, if_pos h]
    exact h
  · rw [FS.set, if_neg h, FS.lookup, List.find?_cons_of_pos _ (by simp)]
    rfl

theorem FS.lookup_set_ne (fs : FS) (p : FPath) (n : Node) (q : FPath)
    (h : ¬ q = p) :
    (fs.set p n).lookup q = fs.lookup q := by
  by_cases hs : fs.lookup p = some n
  · rw [FS.set, if_pos hs]
  · rw [FS.set, if_neg hs, FS.lookup,
      List.find?_cons_of_neg _ (by intro hc; exact h (of_decide_eq_true hc).symm)]
    rw [find?_filter_key fs.entries q p h]
    rfl

theorem FS.pathExists_set_self (fs : FS) (p : FPath) (n : Node) :
    (fs.set p n).pathExists p = true := by
  rw [FS.pathExists, FS.lookup_set_self]
  rfl

theorem FS.lookup_remove_ne (fs : FS) (p q : FPath) (h : ¬ q = p) :
    (fs.remove p).lookup q = fs.lookup q := by
  rw [FS.remove, FS.lookup, find?_filter_key _ _ _ h]
  rfl

theorem FS.mkdirP_lookup_preserved (fs : FS) (p q : FPath)
    (hq : fs.pathExists q = true) :
    (fs.mkdirP p).1.lookup q = fs.lookup q := by
  by_cases hp : fs.pathExists p = true
  · rw [FS.mkdirP, if_pos hp]
  · rw [FS.mkdirP, if_neg hp]
    by_cases hqp : q = p
    · rw [hqp] at hq
      exact absurd hq hp
    · exact FS.lookup_set_ne _ _ _ _ hqp

theorem FS.pathExists_congr (fs1 fs2 : FS) (p : FPath)
    (h : fs1.lookup p = fs2.lookup p) :
    fs1.pathExists p = fs2.pathExists p := by
  rw [FS.pathExists, FS.pathExists, h]

/-- `linkAliases` never disturbs a path that exists and is not one of the
alias paths. -/
theorem linkAliases_lookup_preserved (aliasPaths : List FPath) (fs : FS)
    (primary p : FPath) (hmem : p ∉ aliasPaths)
    (hex : fs.pathExists p = true) :
    (linkAliases fs primary aliasPaths).1.lookup p = fs.lookup p := by
  induction aliasPaths generalizing fs with
  | nil => rfl
  | cons ap rest ih =>
    have hne : ¬ p = ap := fun hc => hmem (hc ▸ List.mem_cons_self ap rest)
    have hmem2 : p ∉ rest := fun hc => hmem (List.mem_cons_of_mem _ hc)
    rcases hmk : fs.mkdirP ap.dropLast with ⟨f1, e1⟩
    have h1 : f1.lookup p = fs.lookup p := by
      have := FS.mkdirP_lookup_preserved fs ap.dropLast p hex
      rw [hmk] at this
      exact this
    have h1e : f1.pathExists p = true := by
      rw [FS.pathExists_congr _ fs _ h1]
      exact hex
    simp only [linkAliases, hmk]
    by_cases hex2 : f1.pathExists ap = true
    · simp only [hex2, if_pos]
      have h2 : (f1.remove ap).lookup p = f1.lookup p :=
        FS.lookup_remove_ne _ _ _ hne
      have h3 : ((f1.remove ap).set ap
          (.link (relWalkUp primary ap.dropLast))).lookup p =
            (f1.remove ap).lookup p :=
        FS.lookup_set_ne _ _ _ _ hne
      have h4 : ((f1.remove ap).set ap
          (.link (relWalkUp primary ap.dropLast))).pathExists p = true := by
        rw [FS.pathExists_congr _ fs _ (by rw [h3, h2, h1])]
        exact hex
      rw [ih _ hmem2 h4, h3, h2, h1]
    · simp only [hex2, Bool.false_eq_true, if_false]
      have h3 : (f1.set ap
          (.link (relWalkUp primary ap.dropLast))).lookup p = f1.lookup p :=
        FS.lookup_set_ne _ _ _ _ hne
      have h4 : (f1.set ap
          (.link (relWalkUp primary ap.dropLast))).pathExists p = true := by
        rw [FS.pathExists_congr _ fs _ (by rw [h3, h1])]
        exact hex
      rw [ih _ hmem2 h4, h3, h1]

/-- With the external tool absent, the symbolic phase does nothing. -/
theorem symbolicPhase_absent (tool : Tool) (destination dest : FPath)
    (aliases : List FPath) (srcFile : FPath) (doc : SvgDoc) (fs : FS)
    (h : tool.present = false) :
    symbolicPhase tool destination dest aliases srcFile doc fs =
      .ok (fs, [], []) := by
  simp [symbolicPhase, h]

/-- Every successful non-skip entry run records the resolution marker. -/
theorem processEntry_resolveE_mem (tool : Tool) (cfg : GeneratorEntry)
    (destination : FPath) (entry : String) (dest : FPath)
    (aliases : List FPath) (fs fs2 : FS) (ev : List Event)
    (fl : List FPath)
    (hall : (dest :: aliases).all
      (fun d => fs.pathExists (scalFile destination d)) = false)
    (hok : processEntry tool cfg destination entry (dest :: aliases) fs =
      .ok (fs2, ev, fl)) :
    Event.resolveE entry ∈ ev := by
  simp only [processEntry, hall, Bool.false_eq_true, if_false] at hok
  split at hok
  · simp only [Except.ok.injEq, Prod.mk.injEq] at hok
    obtain ⟨-, h2, -⟩ := hok
    rw [← h2]
    simp
  · split at hok
    · split at hok
      · simp only [Except.ok.injEq, Prod.mk.injEq] at hok
        obtain ⟨-, h2, -⟩ := hok
        rw [← h2]
        simp
      · split at hok
        · exact absurd hok (by simp)
        · simp only [Except.ok.injEq, Prod.mk.injEq] at hok
          obtain ⟨-, h2, -⟩ := hok
          rw [← h2]
          simp
    · exact absurd hok (by simp)

/-- C4: an entry is skipped if and only if the primary and every alias
vector artifact already exist (first conjunct); whenever at least one is
missing, the successful entry run performs source resolution (second
conjunct), and — when resolution, parsing and the style check succeed —
the primary is fully re-rendered: the transformed source document is
written to the primary destination, rather than any stale primary being
reused (third conjunct, stated with the symbolic phase disabled so that the
entry completes without external-tool state). -/
theorem c4_skip_iff_primary_and_aliases_exist (tool : Tool)
    (cfg : GeneratorEntry) (destination : FPath) (entry : String)
    (dest : FPath) (aliases : List FPath) (fs : FS) :
    ((dest :: aliases).all
        (fun d => fs.pathExists (scalFile destination d)) = true ↔
      processEntry tool cfg destination entry (dest :: aliases) fs =
        .ok (fs, [.skippedE entry], [])) ∧
    (∀ fs2 ev fl,
      (dest :: aliases).all
        (fun d => fs.pathExists (scalFile destination d)) = false →
      processEntry tool cfg destination entry (dest :: aliases) fs =
        .ok (fs2, ev, fl) →
      Event.resolveE entry ∈ ev) ∧
    (∀ sp doc tdoc,
      (dest :: aliases).all
        (fun d => fs.pathExists (scalFile destination d)) = false →
      tool.present = false →
      fs.pathExists (scalParent destination dest) = true →
      resolveSrc fs cfg.srcPaths entry = some sp →
      fs.lookup sp = some (.file (.svg doc)) →
      transformDoc cfg doc = some tdoc →
      scalFile destination dest ∉ aliases.map (scalFile destination) →
      ∃ fs2 ev fl,
        processEntry tool cfg destination entry (dest :: aliases) fs =
          .ok (fs2, ev, fl) ∧
        Event.writeE (scalFile destination dest) ∈ ev ∧
        fs2.lookup (scalFile destination dest) =
          some (.file (.svg tdoc))) := by
  refine ⟨⟨?_, ?_⟩, ?_, ?_⟩
  · intro hall
    simp [processEntry, hall]
  · intro hok
    cases hall : (dest :: aliases).all
        (fun d => fs.pathExists (scalFile destination d)) with
    | true => rfl
    | false =>
      have := processEntry_resolveE_mem tool cfg destination entry dest
        aliases fs fs [.skippedE entry] [] hall hok
      simp at this
  · intro fs2 ev fl hall hok
    exact processEntry_resolveE_mem tool cfg destination entry dest aliases
      fs fs2 ev fl hall hok
  · intro sp doc tdoc hall hpres hpar hres hlook htr hnmem
    simp only [processEntry, hall, Bool.false_eq_true, if_false]
    rw [FS.mkdirP, if_pos hpar]
    simp only [hres, hlook, htr]
    rcases hla : linkAliases
        (fs.set (scalFile destination dest) (.file (.svg tdoc)))
        (scalFile destination dest)
        (aliases.map (scalFile destination)) with ⟨f3, e3⟩
    rw [symbolicPhase_absent tool destination dest aliases sp tdoc f3 hpres]
    refine ⟨f3, _, _, rfl, by simp, ?_⟩
    have := linkAliases_lookup_preserved (aliases.map (scalFile destination))
      (fs.set (scalFile destination dest) (.file (.svg tdoc)))
      (scalFile destination dest) (scalFile destination dest) hnmem
      (FS.pathExists_set_self _ _ _)
    rw [hla] at this
    rw [this, FS.lookup_set_self]

/-- Witness for C4: a complete entry (primary `a`, alias `b`, both
present) is skipped; removing just the alias artifact forces resolution
and a full primary re-render from the source document. -/
theorem c4_skip_iff_primary_and_aliases_exist_witness :
    processEntry toolAbsent exCfg ["t"] "a" [["a"], ["b"]]
      (⟨[(["t", "scalable", "a.svg"], .file (.raw "p")),
         (["t", "scalable", "b.svg"], .link ["a.svg"]),
         (["t", "scalable"], .dir)]⟩ : FS) =
      .ok ((⟨[(["t", "scalable", "a.svg"], .file (.raw "p")),
              (["t", "scalable", "b.svg"], .link ["a.svg"]),
              (["t", "scalable"], .dir)]⟩ : FS),
           [.skippedE "a"], []) ∧
    ∃ fs2 ev fl,
      processEntry toolAbsent exCfg ["t"] "a" [["a"], ["b"]]
        (⟨[(["t", "scalable", "a.svg"], .file (.raw "p")),
           (["t", "scalable"], .dir),
           (["icons", "a.svg"], .file (.svg exDoc))]⟩ : FS) =
        .ok (fs2, ev, fl) ∧
      Event.writeE ["t", "scalable", "a.svg"] ∈ ev ∧
      fs2.lookup ["t", "scalable", "a.svg"] =
        some (.file (.svg exDocT)) := by
  constructor
  · exact (c4_skip_iff_primary_and_aliases_exist toolAbsent exCfg ["t"] "a"
      ["a"] [["b"]] _).1.mp (by decide)
  · exact (c4_skip_iff_primary_and_aliases_exist toolAbsent exCfg ["t"] "a"
      ["a"] [["b"]] _).2.2 ["icons", "a.svg"] exDoc exDocT
      (by decide) (by decide) (by decide)
      (by decide) (by decide) (by decide) (by decide)

/-! ## Scanner lemmas for the style transformer -/

theorem stripLit_append (lit r : List Char) :
    stripLit lit (lit ++ r) = some r := by
  induction lit with
  | nil => rfl
  | cons c cs ih => simp [stripLit, ih]

theorem stripLit_length (lit : List Char) :
    ∀ s r, stripLit lit s = some r → r.length + lit.length = s.length := by
  induction lit with
  | nil =>
    intro s r h
    simp only [stripLit, Option.some.injEq] at h
    simp [h]
  | cons c cs ih =>
    intro s r h
    cases s with
    | nil => simp [stripLit] at h
    | cons d ds =>
      simp only [stripLit] at h
      by_cases hdc : d = c
      · rw [if_pos hdc] at h
        have := ih ds r h
        simp only [List.length_cons]
        omega
      · rw [if_neg hdc] at h
        cases h

theorem matchSWHead_shrink (s g rest : List Char)
    (h : matchSWHead s = some (g, rest)) : rest.length < s.length := by
  simp only [matchSWHead] at h
  split at h
  · cases h
  · rename_i r1 hstrip
    have hlen := stripLit_length swLit s r1 hstrip
    split at h
    · rename_i r3 hdrop
      have hd : (List.dropWhile isWsChar r1).length ≤ r1.length :=
        (List.dropWhile_sublist isWsChar).length_le
      rw [hdrop] at hd
      split at h
      · rename_i v0 vr r5 hv hdrop2
        have hd2 : (List.dropWhile (fun c => ¬ c = ';') r3).length ≤
            r3.length :=
          (List.dropWhile_sublist _).length_le
        rw [hdrop2] at hd2
        simp only [Option.some.injEq, Prod.mk.injEq] at h
        obtain ⟨-, h2⟩ := h
        subst h2
        simp only [List.length_cons, swLit, List.length] at *
        omega
      · cases h
    · cases h

theorem matchStrokeHead_shrink (s m rest : List Char)
    (h : matchStrokeHead s = some (m, rest)) : rest.length < s.length := by
  simp only [matchStrokeHead] at h
  split at h
  · cases h
  · rename_i r1 hstrip
    have hlen := stripLit_length strokeLit s r1 hstrip
    split at h
    · rename_i r3 hdrop
      have hd : (List.dropWhile isWsChar r1).length ≤ r1.length :=
        (List.dropWhile_sublist isWsChar).length_le
      rw [hdrop] at hd
      split at h
      · rename_i v0 vr r5 hv hdrop2
        have hd2 : (List.dropWhile (fun c => ¬ c = ';') r3).length ≤
            r3.length :=
          (List.dropWhile_sublist _).length_le
        rw [hdrop2] at hd2
        simp only [Option.some.injEq, Prod.mk.injEq] at h
        obtain ⟨-, h2⟩ := h
        subst h2
        simp only [List.length_cons, strokeLit, List.length] at *
        omega
      · cases h
    · cases h

theorem scanSubAux_fuel (f : List Char → Option (List Char × List Char))
    (out : List Char → List Char)
    (hf : ∀ s g rest, f s = some (g, rest) → rest.length < s.length) :
    ∀ f1 f2 s, s.length ≤ f1 → s.length ≤ f2 →
      scanSubAux f out f1 s = scanSubAux f out f2 s := by
  intro f1
  induction f1 with
  | zero =>
    intro f2 s h1 _
    have : s = [] := List.eq_nil_of_length_eq_zero (Nat.le_zero.mp h1)
    subst this
    cases f2 <;> rfl
  | succ g1 ih =>
    intro f2 s h1 h2
    cases s with
    | nil => cases f2 <;> rfl
    | cons c cs =>
      cases f2 with
      | zero => simp at h2
      | succ g2 =>
        cases hm : f (c :: cs) with
        | none =>
          have hc1 : cs.length ≤ g1 := by
            simp only [List.length_cons] at h1
            omega
          have hc2 : cs.length ≤ g2 := by
            simp only [List.length_cons] at h2
            omega
          simp only [scanSubAux, hm]
          rw [ih g2 cs hc1 hc2]
        | some pr =>
          rcases pr with ⟨g, rest⟩
          have hr := hf _ _ _ hm
          have hc1 : rest.length ≤ g1 := by
            simp only [List.length_cons] at h1 hr
            omega
          have hc2 : rest.length ≤ g2 := by
            simp only [List.length_cons] at h2 hr
            omega
          simp only [scanSubAux, hm]
          rw [ih g2 rest hc1 hc2]

theorem scanSub_cons_nomatch (f : List Char → Option (List Char × List Char))
    (out : List Char → List Char) (c : Char) (t : List Char)
    (h : f (c :: t) = none) :
    scanSub f out (c :: t) = c :: scanSub f out t := by
  simp only [scanSub, List.length_cons, scanSubAux, h]

theorem scanSub_match (f : List Char → Option (List Char × List Char))
    (out : List Char → List Char) (s g rest : List Char)
    (hf : ∀ s g rest, f s = some (g, rest) → rest.length < s.length)
    (h : f s = some (g, rest)) :
    scanSub f out s = out g ++ scanSub f out rest := by
  cases s with
  | nil =>
    have := hf _ _ _ h
    simp at this
  | cons c cs =>
    simp only [scanSub, List.length_cons, scanSubAux, h]
    have hr := hf _ _ _ h
    simp only [List.length_cons] at hr
    rw [scanSubAux_fuel f out hf cs.length rest.length rest (by omega)
      (Nat.le_refl _)]

theorem scanSub_append_left (f : List Char → Option (List Char × List Char))
    (out : List Char → List Char) (a r : List Char)
    (ha : ∀ c t, c ∈ a → f (c :: t) = none) :
    scanSub f out (a ++ r) = a ++ scanSub f out r := by
  induction a with
  | nil => rfl
  | cons c a2 ih =>
    rw [List.cons_append,
      scanSub_cons_nomatch f out c (a2 ++ r)
        (ha c (a2 ++ r) (List.mem_cons_self c a2)),
      ih (fun c2 t hc2 => ha c2 t (List.mem_cons_of_mem _ hc2))]
    rfl

theorem scanSub_eq_self (f : List Char → Option (List Char × List Char))
    (out : List Char → List Char) (b : List Char)
    (hb : ∀ c t, c ∈ b → f (c :: t) = none) :
    scanSub f out b = b := by
  have := scanSub_append_left f out b [] hb
  simpa [scanSub, scanSubAux] using this

theorem matchSWHead_none_of_head (c : Char) (cs : List Char)
    (h : ¬ c = 's') : matchSWHead (c :: cs) = none := by
  simp [matchSWHead, swLit, stripLit, h]

theorem matchStrokeHead_none_of_head (c : Char) (cs : List Char)
    (h : ¬ c = 's') : matchStrokeHead (c :: cs) = none := by
  simp [matchStrokeHead, strokeLit, stripLit, h]

theorem takeWhile_middle (p : Char → Bool) (w : List Char) (x : Char)
    (r : List Char) (hw : ∀ c ∈ w, p c = true) (hx : p x = false) :
    (w ++ x :: r).takeWhile p = w ∧ (w ++ x :: r).dropWhile p = x :: r := by
  induction w with
  | nil => simp [List.takeWhile_cons, List.dropWhile_cons, hx]
  | cons c w2 ih =>
    have hc : p c = true := hw c (List.mem_cons_self c w2)
    have ih2 := ih (fun c2 hc2 => hw c2 (List.mem_cons_of_mem _ hc2))
    simp [List.takeWhile_cons, List.dropWhile_cons, hc, ih2.1, ih2.2]

theorem matchSWHead_decomp (w : List Char) (v0 : Char) (vr b : List Char)
    (hw : ∀ c ∈ w, isWsChar c = true) (hv0 : ¬ v0 = ';')
    (hvr : ∀ c ∈ vr, ¬ c = ';') :
    matchSWHead (swLit ++ (w ++ ':' :: v0 :: (vr ++ ';' :: b))) =
      some (swLit ++ w ++ [':'], b) := by
  have h1 := takeWhile_middle isWsChar w ':' (v0 :: (vr ++ ';' :: b)) hw
    (by decide)
  have h2 := takeWhile_middle (fun c => ¬ c = ';') (v0 :: vr) ';' b
    (by
      intro c hc
      rcases List.mem_cons.mp hc with h | h
      · simp [h, hv0]
      · simp [hvr c h])
    (by decide)
  simp only [List.cons_append] at h2
  simp only [matchSWHead, stripLit_append, h1.1, h1.2, h2.1, h2.2]

theorem matchStrokeHead_decomp (w : List Char) (v0 : Char) (vr b : List Char)
    (hw : ∀ c ∈ w, isWsChar c = true) (hv0 : ¬ v0 = ';')
    (hvr : ∀ c ∈ vr, ¬ c = ';') :
    matchStrokeHead (strokeLit ++ (w ++ ':' :: v0 :: (vr ++ ';' :: b))) =
      some (strokeLit ++ w ++ [':'] ++ (v0 :: vr) ++ [';'], b) := by
  have h1 := takeWhile_middle isWsChar w ':' (v0 :: (vr ++ ';' :: b)) hw
    (by decide)
  have h2 := takeWhile_middle (fun c => ¬ c = ';') (v0 :: vr) ';' b
    (by
      intro c hc
      rcases List.mem_cons.mp hc with h | h
      · simp [h, hv0]
      · simp [hvr c h])
    (by decide)
  simp only [List.cons_append] at h2
  simp only [matchStrokeHead, stripLit_append, h1.1, h1.2, h2.1, h2.2]

/-! ## C5: the stroke-width stage of the style transformer -/

theorem isPrefixOf_append_self {α : Type} [BEq α] [LawfulBEq α]
    (pat r : List α) : pat.isPrefixOf (pat ++ r) = true := by
  induction pat with
  | nil => simp [List.isPrefixOf]
  | cons c cs ih => simp [List.isPrefixOf, ih]

theorem occursB_append (a pat b : List Char) (h : pat ≠ []) :
    occursB pat (a ++ pat ++ b) = true := by
  induction a with
  | nil =>
    cases pat with
    | nil => exact absurd rfl h
    | cons p0 pr =>
      have hp := isPrefixOf_append_self (p0 :: pr) b
      simp only [List.cons_append] at hp
      simp [occursB, hp]
  | cons c a2 ih =>
    have ih2 := ih
    simp only [List.append_assoc] at ih2
    simp [occursB, List.append_assoc, ih2]

theorem subSW_decomp (lw : Nat) (a w : List Char) (v0 : Char)
    (vr b : List Char) (ha : ∀ c ∈ a, ¬ c = 's')
    (hw : ∀ c ∈ w, isWsChar c = true) (hv0 : ¬ v0 = ';')
    (hvr : ∀ c ∈ vr, ¬ c = ';') (hb : ∀ c ∈ b, ¬ c = 's') :
    subSW lw (a ++ swLit ++ w ++ ':' :: v0 :: (vr ++ ';' :: b)) =
      a ++ swLit ++ w ++ ':' :: (lwPx lw ++ b) := by
  rw [show a ++ swLit ++ w ++ ':' :: v0 :: (vr ++ ';' :: b) =
    a ++ (swLit ++ (w ++ ':' :: v0 :: (vr ++ ';' :: b))) from by simp]
  rw [subSW,
    scanSub_append_left _ _ a _
      (fun c t hc => matchSWHead_none_of_head c t (ha c hc)),
    scanSub_match _ _ _ _ _ matchSWHead_shrink
      (matchSWHead_decomp w v0 vr b hw hv0 hvr),
    scanSub_eq_self _ _ b
      (fun c t hc => matchSWHead_none_of_head c t (hb c hc))]
  simp

theorem subIns_decomp (lw : Nat) (a w : List Char) (v0 : Char)
    (vr b : List Char) (ha : ∀ c ∈ a, ¬ c = 's')
    (hw : ∀ c ∈ w, isWsChar c = true) (hv0 : ¬ v0 = ';')
    (hvr : ∀ c ∈ vr, ¬ c = ';') (hb : ∀ c ∈ b, ¬ c = 's') :
    subIns lw (a ++ strokeLit ++ w ++ ':' :: v0 :: (vr ++ ';' :: b)) =
      a ++ strokeLit ++ w ++ [':'] ++ (v0 :: vr) ++ [';'] ++ swLit ++
        [':'] ++ lwPx lw ++ b := by
  rw [show a ++ strokeLit ++ w ++ ':' :: v0 :: (vr ++ ';' :: b) =
    a ++ (strokeLit ++ (w ++ ':' :: v0 :: (vr ++ ';' :: b))) from by simp]
  rw [subIns,
    scanSub_append_left _ _ a _
      (fun c t hc => matchStrokeHead_none_of_head c t (ha c hc)),
    scanSub_match _ _ _ _ _ matchStrokeHead_shrink
      (matchStrokeHead_decomp w v0 vr b hw hv0 hvr),
    scanSub_eq_self _ _ b
      (fun c t hc => matchStrokeHead_none_of_head c t (hb c hc))]
  simp

/-- C5: the style transformer's stroke-width stage.  First conjunct: on a
style text whose only `s`-region is a `stroke-width<ws>:<value>;`
declaration, exactly the value between the colon and the semicolon is
replaced by `{line_weight}px;` and the rest of the text is untouched.
Second conjunct: when the text contains no `stroke-width` substring (the
code's own trigger) and holds a `stroke<ws>:<color>;` declaration, a
`stroke-width:{line_weight}px;` declaration is inserted immediately after
that declaration.  Third conjunct: when the parsed document's style text is
absent (missing style tag or empty text), the entry ends successfully with
a style-missing marker and no artifact write. -/
theorem c5_stroke_width_stage :
    (∀ (lw : Nat) (a w : List Char) (v0 : Char) (vr b : List Char),
      (∀ c ∈ a, ¬ c = 's') → (∀ c ∈ w, isWsChar c = true) →
      ¬ v0 = ';' → (∀ c ∈ vr, ¬ c = ';') → (∀ c ∈ b, ¬ c = 's') →
      strokeStage lw (a ++ swLit ++ w ++ ':' :: v0 :: (vr ++ ';' :: b)) =
        a ++ swLit ++ w ++ ':' :: (lwPx lw ++ b)) ∧
    (∀ (lw : Nat) (a w : List Char) (v0 : Char) (vr b : List Char),
      (∀ c ∈ a, ¬ c = 's') → (∀ c ∈ w, isWsChar c = true) →
      ¬ v0 = ';' → (∀ c ∈ vr, ¬ c = ';') → (∀ c ∈ b, ¬ c = 's') →
      occursB swLit
        (a ++ strokeLit ++ w ++ ':' :: v0 :: (vr ++ ';' :: b)) = false →
      strokeStage lw
          (a ++ strokeLit ++ w ++ ':' :: v0 :: (vr ++ ';' :: b)) =
        a ++ strokeLit ++ w ++ [':'] ++ (v0 :: vr) ++ [';'] ++ swLit ++
          [':'] ++ lwPx lw ++ b) ∧
    (∀ (tool : Tool) (cfg : GeneratorEntry) (destination : FPath)
        (entry : String) (dest : FPath) (aliases : List FPath) (fs : FS)
        (sp : FPath) (doc : SvgDoc),
      (dest :: aliases).all
        (fun d => fs.pathExists (scalFile destination d)) = false →
      resolveSrc (fs.mkdirP (scalParent destination dest)).1 cfg.srcPaths
        entry = some sp →
      (fs.mkdirP (scalParent destination dest)).1.lookup sp =
        some (.file (.svg doc)) →
      doc.styleText = none →
      processEntry tool cfg destination entry (dest :: aliases) fs =
        .ok ((fs.mkdirP (scalParent destination dest)).1,
             (fs.mkdirP (scalParent destination dest)).2 ++
               [.resolveE entry, .styleMissingE entry], []) ∧
      ((fs.mkdirP (scalParent destination dest)).2 ++
        [Event.resolveE entry, Event.styleMissingE entry]).filter
          Event.isArtifactWrite = []) := by
  refine ⟨?_, ?_, ?_⟩
  · intro lw a w v0 vr b ha hw hv0 hvr hb
    have htrig : occursB swLit
        (a ++ swLit ++ w ++ ':' :: v0 :: (vr ++ ';' :: b)) = true := by
      have := occursB_append a swLit (w ++ ':' :: v0 :: (vr ++ ';' :: b))
        (by simp [swLit])
      simpa using this
    rw [strokeStage, if_pos htrig]
    exact subSW_decomp lw a w v0 vr b ha hw hv0 hvr hb
  · intro lw a w v0 vr b ha hw hv0 hvr hb htrig
    have htrig2 : occursB swLit
        (a ++ (strokeLit ++ (w ++ ':' :: v0 :: (vr ++ ';' :: b)))) =
          false := by
      simpa [List.append_assoc] using htrig
    rw [strokeStage, if_neg (by simp [htrig, htrig2])]
    exact subIns_decomp lw a w v0 vr b ha hw hv0 hvr hb
  · intro tool cfg destination entry dest aliases fs sp doc hall hres
      hlook hstyle
    constructor
    · simp only [processEntry, hall, Bool.false_eq_true, if_false, hres,
        hlook, transformDoc, hstyle]
      simp
    · rcases mkdirP_events fs (scalParent destination dest) with h | h <;>
        simp [h, Event.isArtifactWrite]

/-- Witness for C5: `stroke-width:1px;` with line weight 2 becomes
`stroke-width:2px;`; `stroke:#111111;` (no width) gains
`stroke-width:2px;` right after the color declaration; an entry whose
source document has no style text ends with the style-missing marker. -/
theorem c5_stroke_width_stage_witness :
    strokeStage 2 ([] ++ swLit ++ [] ++ ':' :: '1' ::
        (['p', 'x'] ++ ';' :: [])) =
      [] ++ swLit ++ [] ++ ':' :: (lwPx 2 ++ []) ∧
    strokeStage 2 ([] ++ strokeLit ++ [] ++ ':' :: '#' ::
        (['1', '1', '1', '1', '1'] ++ ';' :: [])) =
      [] ++ strokeLit ++ [] ++ [':'] ++ ('#' :: ['1', '1', '1', '1', '1']) ++
        [';'] ++ swLit ++ [':'] ++ lwPx 2 ++ [] ∧
    processEntry toolOkId exCfg ["t"] "b" [["b"]] exFSNoStyle =
      .ok ((exFSNoStyle.mkdirP (scalParent ["t"] ["b"])).1,
           (exFSNoStyle.mkdirP (scalParent ["t"] ["b"])).2 ++
             [.resolveE "b", .styleMissingE "b"], []) := by
  refine ⟨?_, ?_, ?_⟩
  · exact c5_stroke_width_stage.1 2 [] [] '1' ['p', 'x'] []
      (by decide) (by decide) (by decide) (by decide) (by decide)
  · exact c5_stroke_width_stage.2.1 2 [] [] '#' ['1', '1', '1', '1', '1'] []
      (by decide) (by decide) (by decide) (by decide) (by decide) (by decide)
  · exact (c5_stroke_width_stage.2.2 toolOkId exCfg ["t"] "b" ["b"] []
      exFSNoStyle ["icons", "b.svg"]
      { circles := [], styleText := none, rest := "" }
      (by decide) (by decide) (by decide) (by decide)).1

/-! ## C6: the recolor substitution -/

theorem isPrefixOf_eq_true_iff {α : Type} [BEq α] [LawfulBEq α]
    (l1 : List α) :
    ∀ l2, l1.isPrefixOf l2 = true ↔ ∃ r, l2 = l1 ++ r := by
  induction l1 with
  | nil =>
    intro l2
    simp [List.isPrefixOf]
  | cons c cs ih =>
    intro l2
    cases l2 with
    | nil => simp [List.isPrefixOf]
    | cons d ds =>
      simp only [List.isPrefixOf, Bool.and_eq_true, beq_iff_eq, ih,
        List.cons_append, List.cons.injEq]
      constructor
      · rintro ⟨h1, r, h2⟩
        exact ⟨r, h1.symm, h2⟩
      · rintro ⟨r, h1, h2⟩
        exact ⟨h1.symm, r, h2⟩

theorem occursB_eq_true_iff (pat : List Char) :
    ∀ s, occursB pat s = true ↔ ∃ u v, s = u ++ pat ++ v := by
  intro s
  induction s with
  | nil =>
    cases pat with
    | nil => simp [occursB]
    | cons p0 pr => simp [occursB, List.isEmpty]
  | cons c cs ih =>
    simp only [occursB, Bool.or_eq_true, isPrefixOf_eq_true_iff, ih]
    constructor
    · rintro (⟨r, h⟩ | ⟨u, v, h⟩)
      · exact ⟨[], r, by simp [h]⟩
      · exact ⟨c :: u, v, by simp [h]⟩
    · rintro ⟨u, v, h⟩
      cases u with
      | nil =>
        left
        exact ⟨v, by simpa using h⟩
      | cons u0 ur =>
        right
        simp only [List.cons_append, List.cons.injEq] at h
        exact ⟨ur, v, h.2⟩

theorem isSuffixOf_of_append {α : Type} [BEq α] [LawfulBEq α]
    (l1 u l2 : List α) (h : l2 = u ++ l1) :
    l1.isSuffixOf l2 = true := by
  subst h
  simp only [List.isSuffixOf, List.reverse_append]
  exact isPrefixOf_append_self l1.reverse u.reverse

/-- Decompose an occurrence inside an appended list: it lies in the left
part, in the right part, or it straddles the boundary. -/
theorem occurs_append_cases (l a b : List Char)
    (h : ∃ u v, a ++ b = u ++ l ++ v) :
    (∃ u v, a = u ++ l ++ v) ∨ (∃ u v, b = u ++ l ++ v) ∨
    (∃ s1 s2, l = s1 ++ s2 ∧ s1 ≠ [] ∧ s2 ≠ [] ∧
      (∃ u, a = u ++ s1) ∧ (∃ v, b = s2 ++ v)) := by
  obtain ⟨u, v, huv⟩ := h
  rw [List.append_assoc] at huv
  rcases List.append_eq_append_iff.mp huv with ⟨a2, ha2, hb2⟩ | ⟨c2, hc2, hd2⟩
  · right; left
    exact ⟨a2, v, by rw [hb2, List.append_assoc]⟩
  · rcases List.append_eq_append_iff.mp hd2.symm with ⟨a3, ha3, hv3⟩ |
      ⟨c3, hc3, hb3⟩
    · cases hc2e : c2 with
      | nil =>
        right; left
        subst hc2e
        simp only [List.nil_append] at ha3
        exact ⟨[], v, by rw [hv3, ← ha3]; simp⟩
      | cons x xs =>
        cases ha3e : a3 with
        | nil =>
          left
          subst ha3e
          simp only [List.append_nil] at ha3
          exact ⟨u, [], by rw [hc2, ← ha3]; simp⟩
        | cons y ys =>
          right; right
          refine ⟨c2, a3, ha3, by simp [hc2e], by simp [ha3e],
            ⟨u, hc2⟩, ⟨v, hv3⟩⟩
    · left
      exact ⟨u, c3, by rw [hc2, hc3, List.append_assoc]⟩

theorem replaceAllAux_fuel (pat rep : List Char) (hp : pat ≠ []) :
    ∀ f1 f2 s, s.length ≤ f1 → s.length ≤ f2 →
      replaceAllAux pat rep f1 s = replaceAllAux pat rep f2 s := by
  intro f1
  induction f1 with
  | zero =>
    intro f2 s h1 _
    have : s = [] := List.eq_nil_of_length_eq_zero (Nat.le_zero.mp h1)
    subst this
    cases f2 with
    | zero => rfl
    | succ g2 => simp [replaceAllAux, hp]
  | succ g1 ih =>
    intro f2 s h1 h2
    cases s with
    | nil =>
      cases f2 with
      | zero => simp [replaceAllAux, hp]
      | succ g2 => rfl
    | cons c cs =>
      cases f2 with
      | zero => simp at h2
      | succ g2 =>
        by_cases hm : pat.isPrefixOf (c :: cs) = true
        · have hcond : pat ≠ [] ∧ pat.isPrefixOf (c :: cs) := ⟨hp, hm⟩
          simp only [replaceAllAux, if_pos hcond]
          have hplen : 1 ≤ pat.length :=
            Nat.succ_le_of_lt (List.length_pos.mpr hp)
          have hd : ((c :: cs).drop pat.length).length ≤ g1 := by
            rw [List.length_drop]
            simp only [List.length_cons] at h1 ⊢
            omega
          have hd2 : ((c :: cs).drop pat.length).length ≤ g2 := by
            rw [List.length_drop]
            simp only [List.length_cons] at h2 ⊢
            omega
          rw [ih g2 _ hd hd2]
        · have hcond : ¬ (pat ≠ [] ∧ pat.isPrefixOf (c :: cs)) := by
            intro hc
            exact hm (by simpa using hc.2)
          simp only [replaceAllAux, if_neg hcond, if_neg hp]
          have hc1 : cs.length ≤ g1 := by
            simp only [List.length_cons] at h1
            omega
          have hc2 : cs.length ≤ g2 := by
            simp only [List.length_cons] at h2
            omega
          rw [ih g2 cs hc1 hc2]

theorem replaceAll_nil (pat rep : List Char) (hp : pat ≠ []) :
    replaceAll pat rep [] = [] := by
  simp [replaceAll, replaceAllAux, hp]

theorem replaceAll_cons_nomatch (pat rep : List Char) (c : Char)
    (cs : List Char) (hp : pat ≠ [])
    (h : pat.isPrefixOf (c :: cs) = false) :
    replaceAll pat rep (c :: cs) = c :: replaceAll pat rep cs := by
  have hcond : ¬ (pat ≠ [] ∧ pat.isPrefixOf (c :: cs)) := by
    intro hc
    rw [h] at hc
    exact absurd hc.2 (by simp)
  simp only [replaceAll, List.length_cons, replaceAllAux, if_neg hcond,
    if_neg hp]

theorem replaceAll_cons_match (pat rep : List Char) (c : Char)
    (cs : List Char) (hp : pat ≠ [])
    (h : pat.isPrefixOf (c :: cs) = true) :
    replaceAll pat rep (c :: cs) =
      rep ++ replaceAll pat rep ((c :: cs).drop pat.length) := by
  have hcond : pat ≠ [] ∧ pat.isPrefixOf (c :: cs) := ⟨hp, h⟩
  simp only [replaceAll, List.length_cons, replaceAllAux, if_pos hcond]
  have hplen : 1 ≤ pat.length :=
    Nat.succ_le_of_lt (List.length_pos.mpr hp)
  rw [replaceAllAux_fuel pat rep hp (cs.length + 1)
    (((c :: cs).drop pat.length).length + 1) _
    (by
      rw [List.length_drop]
      simp only [List.length_cons]
      omega)
    (Nat.le_succ _)]

/-- Every all-ones block at the front of the substitution output was
already at the front of the input (the replacement token `#ff0000`
contains no `1`). -/
theorem ones_block_preserved :
    ∀ (u w : List Char), (∀ c ∈ w, c = '1') →
      (∃ r, replaceAll src6 rep6 u = w ++ r) → ∃ r2, u = w ++ r2 := by
  intro u
  induction u with
  | nil =>
    intro w hw hr
    obtain ⟨r, hr⟩ := hr
    rw [replaceAll_nil _ _ (by simp [src6])] at hr
    have hw2 : w = [] := by
      cases w with
      | nil => rfl
      | cons w0 wr => simp at hr
    exact ⟨[], by simp [hw2]⟩
  | cons c cs ih =>
    intro w hw hr
    obtain ⟨r, hr⟩ := hr
    by_cases hm : src6.isPrefixOf (c :: cs) = true
    · rw [replaceAll_cons_match _ _ _ _ (by simp [src6]) hm] at hr
      cases w with
      | nil => exact ⟨c :: cs, rfl⟩
      | cons w0 wr =>
        have hw0 : w0 = '1' := hw w0 (List.mem_cons_self w0 wr)
        rw [show rep6 = '#' :: ['f', 'f', '0', '0', '0', '0'] from rfl]
          at hr
        simp only [List.cons_append, List.cons.injEq] at hr
        rw [hw0] at hr
        exact absurd hr.1 (by decide)
    · have hmf : src6.isPrefixOf (c :: cs) = false := by
        simp only [Bool.not_eq_true] at hm
        exact hm
      rw [replaceAll_cons_nomatch _ _ _ _ (by simp [src6]) hmf] at hr
      cases w with
      | nil => exact ⟨c :: cs, rfl⟩
      | cons w0 wr =>
        simp only [List.cons_append, List.cons.injEq] at hr
        obtain ⟨hc, hr2⟩ := hr
        obtain ⟨r2, hr3⟩ := ih wr
          (fun x hx => hw x (List.mem_cons_of_mem _ hx)) ⟨r, hr2⟩
        exact ⟨r2, by simp [← hc, hr3]⟩

/-- No nonempty suffix of the replacement token is a matching start of the
source token, and the source token does not occur in the replacement. -/
theorem rep6_boundary :
    (∀ k, 1 ≤ k → k ≤ 6 → (src6.take k).isSuffixOf rep6 = false) ∧
    occursB src6 rep6 = false := by
  constructor
  · decide
  · decide

/-- The substitution of `#111111` by `#ff0000` leaves no occurrence of
`#111111`, whatever the input text. -/
theorem replaceAll_no_occurrence :
    ∀ u, occursB src6 (replaceAll src6 rep6 u) = false := by
  have main : ∀ n (u : List Char), u.length ≤ n →
      occursB src6 (replaceAll src6 rep6 u) = false := by
    intro n
    induction n with
    | zero =>
      intro u hu
      have : u = [] := List.eq_nil_of_length_eq_zero (Nat.le_zero.mp hu)
      subst this
      rw [replaceAll_nil _ _ (by simp [src6])]
      decide
    | succ n ih =>
      intro u hu
      cases u with
      | nil =>
        rw [replaceAll_nil _ _ (by simp [src6])]
        decide
      | cons c cs =>
        by_cases hm : src6.isPrefixOf (c :: cs) = true
        · rw [replaceAll_cons_match _ _ _ _ (by simp [src6]) hm]
          by_contra hocc
          have hocc2 : occursB src6
              (rep6 ++ replaceAll src6 rep6 ((c :: cs).drop src6.length)) =
                true := by
            cases hb : occursB src6
                (rep6 ++ replaceAll src6 rep6 ((c :: cs).drop src6.length))
            · exact absurd hb hocc
            · rfl
          have hdroplen : ((c :: cs).drop src6.length).length ≤ n := by
            rw [List.length_drop]
            simp only [List.length_cons] at hu ⊢
            have h17 : 1 ≤ src6.length := by decide
            omega
          have hih := ih _ hdroplen
          rcases occurs_append_cases src6 rep6 _
              ((occursB_eq_true_iff src6 _).mp hocc2) with
            hrep | hrest | ⟨s1, s2, hsplit, hs1, hs2, ⟨u2, hu2⟩, -⟩
          · have : occursB src6 rep6 = true :=
              (occursB_eq_true_iff src6 rep6).mpr hrep
            rw [rep6_boundary.2] at this
            cases this
          · have : occursB src6
                (replaceAll src6 rep6 ((c :: cs).drop src6.length)) = true :=
              (occursB_eq_true_iff src6 _).mpr hrest
            rw [hih] at this
            cases this
          · have hs1take : s1 = src6.take s1.length := by
              rw [hsplit]
              exact (List.take_left s1 s2).symm
            have hk1 : 1 ≤ s1.length :=
              Nat.succ_le_of_lt (List.length_pos.mpr hs1)
            have hk6 : s1.length ≤ 6 := by
              have h7 : s1.length + s2.length = 7 := by
                have := congrArg List.length hsplit
                simp only [List.length_append] at this
                rw [show src6.length = 7 from rfl] at this
                omega
              have : 1 ≤ s2.length :=
                Nat.succ_le_of_lt (List.length_pos.mpr hs2)
              omega
            have hsuf : (src6.take s1.length).isSuffixOf rep6 = true := by
              rw [← hs1take]
              exact isSuffixOf_of_append s1 u2 rep6 hu2
            rw [rep6_boundary.1 s1.length hk1 hk6] at hsuf
            cases hsuf
        · have hmf : src6.isPrefixOf (c :: cs) = false := by
            simp only [Bool.not_eq_true] at hm
            exact hm
          rw [replaceAll_cons_nomatch _ _ _ _ (by simp [src6]) hmf]
          have hcs : cs.length ≤ n := by
            simp only [List.length_cons] at hu
            omega
          have hih := ih cs hcs
          simp only [occursB, Bool.or_eq_false_iff]
          refine ⟨?_, hih⟩
          by_contra hpre
          have hpre2 : src6.isPrefixOf
              (c :: replaceAll src6 rep6 cs) = true := by
            cases hb : src6.isPrefixOf (c :: replaceAll src6 rep6 cs)
            · exact absurd hb hpre
            · rfl
          rw [show src6 = '#' :: ones6 from rfl] at hpre2
          simp only [List.isPrefixOf, Bool.and_eq_true, beq_iff_eq] at hpre2
          obtain ⟨hc, hones⟩ := hpre2
          obtain ⟨r, hr⟩ := (isPrefixOf_eq_true_iff ones6 _).mp hones
          obtain ⟨r2, hr2⟩ := ones_block_preserved cs ones6 (by decide)
            ⟨r, hr⟩
          have : src6.isPrefixOf (c :: cs) = true := by
            rw [show src6 = '#' :: ones6 from rfl]
            simp only [List.isPrefixOf, Bool.and_eq_true, beq_iff_eq]
            refine ⟨hc, ?_⟩
            rw [hr2]
            exact isPrefixOf_append_self ones6 r2
          exact hm this
  intro u
  exact main u.length u (Nat.le_refl _)

/-- C6 counterexample: with source token `#1` and destination token `#11`,
recoloring the style text `#1` yields `#11`, which still contains the
source token — the claim's "zero occurrences of the source token" fails
for tokens where the destination reintroduces the source. -/
theorem c6_counterexample :
    occursB ['#', '1']
      (transformStyleText 2 ['#', '1'] ['#', '1', '1'] ['#', '1']) =
      true := by
  decide

/-- C6 amended: recoloring is an exact textual substitution applied only
to the style block's text — the transformer never changes the document
outside the style tag (first conjunct) — and for the spec's example tokens
(`#111111` to `#ff0000`, where the destination cannot recreate the
source), the transformed style text contains zero occurrences of the
source token for every input text (second conjunct).  In general the
destination token can reintroduce the source token
(see the counterexample), so "zero occurrences" holds only for such
non-reintroducing token pairs. -/
theorem c6_recolor_amended :
    (∀ (cfg : GeneratorEntry) (doc doc2 : SvgDoc),
      transformDoc cfg doc = some doc2 → doc2.rest = doc.rest) ∧
    (∀ (lw : Nat) (t : List Char),
      occursB src6 (transformStyleText lw src6 rep6 t) = false) := by
  constructor
  · intro cfg doc doc2 h
    cases hst : doc.styleText with
    | none => simp [transformDoc, hst] at h
    | some t =>
      simp only [transformDoc, hst, Option.some.injEq] at h
      rw [← h]
  · intro lw t
    exact replaceAll_no_occurrence (strokeStage lw t)

/-- Witness for C6 amended: the transform of the fixture document keeps
the document body and its output style text holds no `#111111`. -/
theorem c6_recolor_amended_witness :
    exDocT.rest = exDoc.rest ∧
    occursB src6 (transformStyleText 2 src6 rep6
      "fill:none;stroke:#111111;".toList) = false :=
  ⟨c6_recolor_amended.1 exCfg exDoc exDocT (by decide),
   c6_recolor_amended.2 2 "fill:none;stroke:#111111;".toList⟩

/-! ## C3: utilities for the idempotence development -/

theorem isPrefixOf_append_cancel {α : Type} [BEq α] [LawfulBEq α]
    (a b c : List α) :
    (a ++ b).isPrefixOf (a ++ c) = b.isPrefixOf c := by
  induction a with
  | nil => rfl
  | cons x xs ih => simp [List.isPrefixOf, ih]

theorem isPrefixOf_left_of_le {α : Type} [BEq α] [LawfulBEq α]
    (a : List α) :
    ∀ b c, a.length ≤ b.length → a.isPrefixOf (b ++ c) = a.isPrefixOf b := by
  induction a with
  | nil => intro b c _; simp [List.isPrefixOf]
  | cons x xs ih =>
    intro b c hlen
    cases b with
    | nil => simp at hlen
    | cons y ys =>
      simp only [List.cons_append, List.isPrefixOf]
      rw [show ys.append c = ys ++ c from rfl, ih ys c (by simpa using hlen)]

theorem isPrefixOf_cons_false {α : Type} [BEq α] [LawfulBEq α]
    (x y : α) (xs t : List α) (h : ¬ x = y) :
    (x :: xs).isPrefixOf (y :: t) = false := by
  simp [List.isPrefixOf, h]

theorem isPrefixOf_of_dropLast (a q : FPath) (hq : q ≠ [])
    (h : a.isPrefixOf q.dropLast = true) : a.isPrefixOf q = true := by
  obtain ⟨r, hr⟩ := (isPrefixOf_eq_true_iff a q.dropLast).mp h
  have hql := List.dropLast_concat_getLast hq
  rw [(isPrefixOf_eq_true_iff a q)]
  refine ⟨r ++ [q.getLast hq], ?_⟩
  rw [← List.append_assoc, ← hr]
  exact hql.symm

theorem find?_congruent {α : Type} (l : List α) (p q : α → Bool)
    (h : ∀ x ∈ l, p x = q x) : l.find? p = l.find? q := by
  induction l with
  | nil => rfl
  | cons x xs ih =>
    cases hp : p x with
    | true =>
      rw [List.find?_cons_of_pos _ hp,
        List.find?_cons_of_pos _ (by rw [← h x (List.mem_cons_self x xs)]; exact hp)]
    | false =>
      rw [List.find?_cons_of_neg _ (by simp [hp]),
        List.find?_cons_of_neg _ (by
          rw [← h x (List.mem_cons_self x xs), hp]
          simp)]
      exact ih (fun y hy => h y (List.mem_cons_of_mem _ hy))

theorem FS.set_same (fs : FS) (p : FPath) (n : Node)
    (h : fs.lookup p = some n) : fs.set p n = fs := by
  rw [FS.set, if_pos h]

theorem FS.pathExists_set_mono (fs : FS) (p q : FPath) (n : Node)
    (h : fs.pathExists p = true) : (fs.set q n).pathExists p = true := by
  by_cases hpq : p = q
  · subst hpq
    exact FS.pathExists_set_self fs p n
  · rw [FS.pathExists, FS.lookup_set_ne _ _ _ _ hpq]
    exact h

theorem FS.mkdirP_exists_self (fs : FS) (p : FPath) :
    (fs.mkdirP p).1.pathExists p = true := by
  by_cases h : fs.pathExists p = true
  · rw [FS.mkdirP, if_pos h]
    exact h
  · rw [FS.mkdirP, if_neg h]
    exact FS.pathExists_set_self fs p .dir

theorem FS.pathExists_mkdirP_mono (fs : FS) (p q : FPath)
    (h : fs.pathExists p = true) : (fs.mkdirP q).1.pathExists p = true := by
  by_cases hq : fs.pathExists q = true
  · rw [FS.mkdirP, if_pos hq]
    exact h
  · rw [FS.mkdirP, if_neg hq]
    exact FS.pathExists_set_mono fs p q .dir h

theorem FS.lookup_mkdirP_ne (fs : FS) (p q : FPath) (h : ¬ p = q) :
    (fs.mkdirP q).1.lookup p = fs.lookup p := by
  by_cases hq : fs.pathExists q = true
  · rw [FS.mkdirP, if_pos hq]
  · rw [FS.mkdirP, if_neg hq]
    exact FS.lookup_set_ne _ _ _ _ h

theorem FS.lookup_foldl_remove_notmem (zeros : List FPath) :
    ∀ (fs : FS) (p : FPath), p ∉ zeros →
      (zeros.foldl FS.remove fs).lookup p = fs.lookup p := by
  induction zeros with
  | nil => intro fs p _; rfl
  | cons z zs ih =>
    intro fs p hp
    have hz : ¬ p = z := fun hc => hp (hc ▸ List.mem_cons_self z zs)
    rw [List.foldl_cons, ih _ _ (fun hc => hp (List.mem_cons_of_mem _ hc)),
      FS.lookup_remove_ne _ _ _ hz]

theorem globZero_lastEnds (fs : FS) (destination dest : FPath) (q : FPath)
    (h : q ∈ globZero fs destination dest) :
    lastEndsWith dot0svg q = true := by
  have := (List.mem_filter.mp h).2
  simp only [Bool.and_eq_true] at this
  have h3 := this.2
  simpa [dot0svg] using h3

theorem globZero_under (fs : FS) (destination dest : FPath) (q : FPath)
    (h : q ∈ globZero fs destination dest) :
    destination.isPrefixOf q = true := by
  have hmem := (List.mem_filter.mp h).2
  simp only [Bool.and_eq_true] at hmem
  have h1 : q.dropLast = (scalRoot destination ++ dest).dropLast := by
    have := hmem.1.1
    simpa using this
  by_cases hdest0 : destination = []
  · subst hdest0
    simp [List.isPrefixOf]
  · have hq : q ≠ [] := by
      intro hc
      subst hc
      have hlen := congrArg List.length h1
      simp only [List.dropLast_nil, List.length_nil, List.length_dropLast,
        List.length_append, List.length_cons, scalRoot] at hlen
      have hd1 : 1 ≤ destination.length :=
        Nat.succ_le_of_lt (List.length_pos.mpr hdest0)
      omega
    apply isPrefixOf_of_dropLast _ _ hq
    rw [h1, scalRoot, List.append_assoc,
      List.dropLast_append_of_ne_nil _ (by simp)]
    exact isPrefixOf_append_self destination _

theorem getLastD_ne_default {α : Type} (l : List α) (e1 e2 : α)
    (h : l ≠ []) : l.getLastD e1 = l.getLastD e2 := by
  cases l with
  | nil => exact absurd rfl h
  | cons a t =>
    rw [List.getLastD_eq_getLast?, List.getLastD_eq_getLast?]
    cases ht : (a :: t).getLast? with
    | none => simp at ht
    | some x => rfl

theorem getLastD_append_ne {α : Type} (a b : List α) (e : α) (hb : b ≠ []) :
    (a ++ b).getLastD e = b.getLastD e := by
  cases hbe : b.getLast? with
  | none =>
    cases b with
    | nil => exact absurd rfl hb
    | cons x t => simp at hbe
  | some x =>
    rw [List.getLastD_eq_getLast?, List.getLastD_eq_getLast?,
      List.getLast?_append, hbe]
    rfl

theorem getLastD_mem {α : Type} (l : List α) (e : α) (h : l ≠ []) :
    l.getLastD e ∈ l := by
  induction l generalizing e with
  | nil => exact absurd rfl h
  | cons a t ih =>
    rw [List.getLastD_cons]
    cases ht : t with
    | nil => simp
    | cons b t2 =>
      exact List.mem_cons_of_mem _ (ht ▸ ih a (by simp [ht]))

theorem appendLast_ne_nil (suf : String) (d : FPath) :
    appendLast suf d ≠ [] := by
  cases d with
  | nil => simp [appendLast]
  | cons x xs => cases xs <;> simp [appendLast]

theorem appendLast_getLastD_ne (suf : String) (d : FPath) (hd : d ≠ []) :
    (appendLast suf d).getLastD "" = (d.getLastD "") ++ suf := by
  induction d with
  | nil => exact absurd rfl hd
  | cons x xs ih =>
    cases hxs : xs with
    | nil => simp [appendLast, List.getLastD_cons]
    | cons y ys =>
      subst hxs
      rw [show appendLast suf (x :: y :: ys) =
          x :: appendLast suf (y :: ys) from rfl]
      rw [List.getLastD_cons, List.getLastD_cons]
      rw [getLastD_ne_default _ x "" (appendLast_ne_nil suf (y :: ys)),
        ih (by simp), getLastD_ne_default (y :: ys) x "" (by simp)]

theorem dot0svg_suffix_svg (dl : String) :
    dot0svg.isSuffixOf ((dl ++ ".svg").data) = dot0.isSuffixOf dl.data := by
  have hdata : (dl ++ ".svg").data = dl.data ++ ['.', 's', 'v', 'g'] := by
    rw [String.data_append]
  rw [hdata]
  simp only [List.isSuffixOf, List.reverse_append]
  rw [show (['.', 's', 'v', 'g'] : List Char).reverse =
    ['g', 'v', 's', '.'] from rfl]
  rw [show dot0svg.reverse = ['g', 'v', 's', '.'] ++ ['0', '.'] from rfl]
  rw [isPrefixOf_append_cancel]
  rw [show (['0', '.'] : List Char) = dot0.reverse from rfl]

theorem dot0svg_suffix_symbolic (dl : String) :
    dot0svg.isSuffixOf ((dl ++ "-symbolic.svg").data) = false := by
  have hdata : (dl ++ "-symbolic.svg").data =
      dl.data ++ "-symbolic.svg".data := String.data_append dl _
  rw [hdata]
  simp only [List.isSuffixOf, List.reverse_append]
  rw [isPrefixOf_left_of_le _ _ _ (by decide)]
  decide

theorem destOk_parts (d : FPath) (hd : destOk d = true) :
    d ≠ [] ∧ dot0.isSuffixOf (d.getLastD "").data = false ∧
      ∀ seg ∈ d, dot0svg.isSuffixOf seg.data = false := by
  simp only [destOk, Bool.and_eq_true, Bool.not_eq_true'] at hd
  obtain ⟨⟨hne, h0⟩, hall⟩ := hd
  refine ⟨?_, h0, ?_⟩
  · intro hc
    rw [hc] at hne
    simp at hne
  · intro seg hseg
    have := List.all_eq_true.mp hall _ hseg
    simpa using this

theorem safe_scalFile (destination d : FPath) (hd : destOk d = true) :
    lastEndsWith dot0svg (scalFile destination d) = false := by
  obtain ⟨hne, h0, -⟩ := destOk_parts d hd
  rw [lastEndsWith, scalFile,
    getLastD_append_ne _ _ _ (appendLast_ne_nil ".svg" d),
    appendLast_getLastD_ne _ _ hne, dot0svg_suffix_svg, h0]

theorem safe_symFile (destination d : FPath) (hd : d ≠ []) :
    lastEndsWith dot0svg (symFile destination d) = false := by
  rw [lastEndsWith, symFile,
    getLastD_append_ne _ _ _ (appendLast_ne_nil "-symbolic.svg" d),
    appendLast_getLastD_ne _ _ hd, dot0svg_suffix_symbolic]

theorem safe_scalParent (destination d : FPath) (hd : destOk d = true) :
    lastEndsWith dot0svg (scalParent destination d) = false := by
  obtain ⟨hne, -, hall⟩ := destOk_parts d hd
  rw [scalParent, scalRoot, List.append_assoc,
    List.dropLast_append_of_ne_nil _ (by simp),
    List.dropLast_append_of_ne_nil _ hne]
  rw [lastEndsWith, getLastD_append_ne _ _ _ (by simp)]
  cases hrest : d.dropLast with
  | nil =>
    simp only [List.append_nil]
    decide
  | cons q0 qr =>
    rw [getLastD_append_ne _ _ _ (by simp)]
    have hmem : ((q0 :: qr).getLastD "") ∈ d := by
      have h1 : ((q0 :: qr).getLastD "") ∈ d.dropLast := by
        rw [hrest]
        exact getLastD_mem _ _ (by simp)
      exact List.dropLast_subset d h1
    exact hall _ hmem

theorem safe_index (destination : FPath) :
    lastEndsWith dot0svg (destination ++ ["index.theme"]) = false := by
  rw [lastEndsWith, getLastD_append_ne _ _ _ (by simp)]
  decide

theorem safe_size (destination : FPath) (folder : String)
    (hf : folder ∈ sizeFolders) :
    lastEndsWith dot0svg (destination ++ [folder]) = false := by
  rw [lastEndsWith, getLastD_append_ne _ _ _ (by simp)]
  have : ∀ f ∈ sizeFolders, dot0svg.isSuffixOf f.data = false := by decide
  simpa using this folder hf

theorem under_append (destination X : FPath) :
    destination.isPrefixOf (destination ++ X) = true :=
  isPrefixOf_append_self destination X

theorem under_dropLast_append (destination X : FPath) (hX : X ≠ []) :
    destination.isPrefixOf ((destination ++ X).dropLast) = true := by
  rw [List.dropLast_append_of_ne_nil _ hX]
  exact isPrefixOf_append_self destination _

theorem ne_of_not_under (p q destination : FPath)
    (hq : destination.isPrefixOf q = true)
    (hp : destination.isPrefixOf p = false) : ¬ p = q := by
  intro hc
  rw [hc, hq] at hp
  cases hp

theorem under_scalFile (destination d : FPath) :
    destination.isPrefixOf (scalFile destination d) = true := by
  rw [scalFile, scalRoot, List.append_assoc]
  exact under_append destination _

theorem under_symFile (destination d : FPath) :
    destination.isPrefixOf (symFile destination d) = true := by
  rw [symFile, symRoot, List.append_assoc]
  exact under_append destination _

theorem under_scalParent (destination d : FPath) :
    destination.isPrefixOf (scalParent destination d) = true := by
  rw [scalParent, scalRoot, List.append_assoc]
  exact under_dropLast_append destination _ (by simp)

theorem under_symParent (destination d : FPath) :
    destination.isPrefixOf (symParent destination d) = true := by
  rw [symParent, symRoot, List.append_assoc]
  exact under_dropLast_append destination _ (by simp)

theorem under_scalFile_dropLast (destination d : FPath) :
    destination.isPrefixOf ((scalFile destination d).dropLast) = true := by
  rw [scalFile, scalRoot, List.append_assoc]
  exact under_dropLast_append destination _ (by simp)

theorem under_symFile_dropLast (destination d : FPath) :
    destination.isPrefixOf ((symFile destination d).dropLast) = true := by
  rw [symFile, symRoot, List.append_assoc]
  exact under_dropLast_append destination _ (by simp)

theorem linkAliases_exists_mono (aliasPaths : List FPath) :
    ∀ (fs : FS) (primary p : FPath), fs.pathExists p = true →
      (linkAliases fs primary aliasPaths).1.pathExists p = true := by
  induction aliasPaths with
  | nil => intro fs primary p h; exact h
  | cons ap rest ih =>
    intro fs primary p h
    rcases hmk : fs.mkdirP ap.dropLast with ⟨f1, e1⟩
    have h1 : f1.pathExists p = true := by
      have := FS.pathExists_mkdirP_mono fs p ap.dropLast h
      rw [hmk] at this
      exact this
    simp only [linkAliases, hmk]
    by_cases hex2 : f1.pathExists ap = true
    · simp only [hex2, if_pos]
      apply ih
      by_cases hpap : p = ap
      · subst hpap
        exact FS.pathExists_set_self _ _ _
      · apply FS.pathExists_set_mono
        rw [FS.pathExists, FS.lookup_remove_ne _ _ _ hpap]
        exact h1
    · simp only [hex2, Bool.false_eq_true, if_false]
      exact ih _ _ _ (FS.pathExists_set_mono _ _ _ _ h1)

theorem linkAliases_targets_exist (aliasPaths : List FPath) :
    ∀ (fs : FS) (primary : FPath), ∀ ap ∈ aliasPaths,
      (linkAliases fs primary aliasPaths).1.pathExists ap = true := by
  induction aliasPaths with
  | nil => intro fs primary ap h; cases h
  | cons ap0 rest ih =>
    intro fs primary ap hap
    rcases hmk : fs.mkdirP ap0.dropLast with ⟨f1, e1⟩
    simp only [linkAliases, hmk]
    rcases List.mem_cons.mp hap with h | h
    · subst h
      by_cases hex2 : f1.pathExists ap = true
      · simp only [hex2, if_pos]
        exact linkAliases_exists_mono rest _ primary ap
          (FS.pathExists_set_self _ _ _)
      · simp only [hex2, Bool.false_eq_true, if_false]
        exact linkAliases_exists_mono rest _ primary ap
          (FS.pathExists_set_self _ _ _)
    · by_cases hex2 : f1.pathExists ap0 = true
      · simp only [hex2, if_pos]
        exact ih _ primary ap h
      · simp only [hex2, Bool.false_eq_true, if_false]
        exact ih _ primary ap h

theorem linkAliases_lookup_outside (aliasPaths : List FPath) :
    ∀ (fs : FS) (primary p : FPath),
      (∀ ap ∈ aliasPaths, ¬ p = ap ∧ ¬ p = ap.dropLast) →
      (linkAliases fs primary aliasPaths).1.lookup p = fs.lookup p := by
  induction aliasPaths with
  | nil => intro fs primary p _; rfl
  | cons ap rest ih =>
    intro fs primary p hap
    obtain ⟨hne1, hne2⟩ := hap ap (List.mem_cons_self ap rest)
    have haprest := fun ap2 h2 => hap ap2 (List.mem_cons_of_mem _ h2)
    rcases hmk : fs.mkdirP ap.dropLast with ⟨f1, e1⟩
    have h1 : f1.lookup p = fs.lookup p := by
      have := FS.lookup_mkdirP_ne fs p ap.dropLast hne2
      rw [hmk] at this
      exact this
    simp only [linkAliases, hmk]
    by_cases hex2 : f1.pathExists ap = true
    · simp only [hex2, if_pos]
      rw [ih _ primary p haprest, FS.lookup_set_ne _ _ _ _ hne1,
        FS.lookup_remove_ne _ _ _ hne1, h1]
    · simp only [hex2, Bool.false_eq_true, if_false]
      rw [ih _ primary p haprest, FS.lookup_set_ne _ _ _ _ hne1, h1]

theorem symbolicPhase_exists_mono (tool : Tool) (destination dest : FPath)
    (aliases : List FPath) (srcFile : FPath) (doc : SvgDoc) (fs : FS)
    (p : FPath) (hsafe : lastEndsWith dot0svg p = false)
    (hex : fs.pathExists p = true) :
    ∀ fs2 ev fl,
      symbolicPhase tool destination dest aliases srcFile doc fs =
        .ok (fs2, ev, fl) →
      fs2.pathExists p = true := by
  intro fs2 ev fl
  rw [symbolicPhase]
  by_cases hpres : tool.present = true
  · rw [if_neg (by simp [hpres])]
    rcases hmk : fs.mkdirP (symParent destination dest) with ⟨f1, e1⟩
    have h1 : f1.pathExists p = true := by
      have := FS.pathExists_mkdirP_mono fs p (symParent destination dest) hex
      rw [hmk] at this
      exact this
    have tail : ∀ (fx : FS) (c : Content) (flx : List FPath),
        fx.pathExists p = true →
        (linkAliases ((globZero
              (fx.set (symFile destination dest) (.file (tool.minify c)))
              destination dest).foldl FS.remove
            (fx.set (symFile destination dest) (.file (tool.minify c))))
          (symFile destination dest)
          (aliases.map (symFile destination))).1.pathExists p = true := by
      intro fx c flx hx
      apply linkAliases_exists_mono
      have h3 : (fx.set (symFile destination dest)
          (.file (tool.minify c))).pathExists p = true :=
        FS.pathExists_set_mono _ _ _ _ hx
      have hnot : p ∉ globZero
          (fx.set (symFile destination dest) (.file (tool.minify c)))
          destination dest := by
        intro hc
        have := globZero_lastEnds _ _ _ _ hc
        rw [hsafe] at this
        cases this
      rw [FS.pathExists,
        FS.lookup_foldl_remove_notmem _ _ _ hnot]
      exact h3
    cases hrun : tool.run doc with
    | ok out =>
      simp only []
      cases hlook : (f1.set (symFile destination dest)
          (.file (.svg out))).lookup (symFile destination dest) with
      | none => intro h; exact absurd h (by simp)
      | some node =>
        cases node with
        | dir => intro h; exact absurd h (by simp)
        | link tgt => intro h; exact absurd h (by simp)
        | file c =>
          intro h
          injection h with h
          injection h with h1x h
          rw [← h1x]
          exact tail _ c [] (FS.pathExists_set_mono _ _ _ _ h1)
    | fail wrote =>
      cases wrote with
      | some o =>
        simp only []
        cases hlook : (f1.set (symFile destination dest)
            (.file (.svg o))).lookup (symFile destination dest) with
        | none => intro h; exact absurd h (by simp)
        | some node =>
          cases node with
          | dir => intro h; exact absurd h (by simp)
          | link tgt => intro h; exact absurd h (by simp)
          | file c =>
            intro h
            injection h with h
            injection h with h1x h
            rw [← h1x]
            exact tail _ c [srcFile] (FS.pathExists_set_mono _ _ _ _ h1)
      | none =>
        simp only []
        cases hlook : f1.lookup (symFile destination dest) with
        | none => intro h; exact absurd h (by simp)
        | some node =>
          cases node with
          | dir => intro h; exact absurd h (by simp)
          | link tgt => intro h; exact absurd h (by simp)
          | file c =>
            intro h
            injection h with h
            injection h with h1x h
            rw [← h1x]
            exact tail _ c [srcFile] h1
  · rw [if_pos (by simp [Bool.not_eq_true] at hpres ⊢; exact hpres)]
    intro h
    injection h with h
    injection h with h1x h
    rw [← h1x]
    exact hex

theorem symbolicPhase_lookup_outside (tool : Tool)
    (destination dest : FPath) (aliases : List FPath) (srcFile : FPath)
    (doc : SvgDoc) (fs : FS) (p : FPath)
    (hp : destination.isPrefixOf p = false) :
    ∀ fs2 ev fl,
      symbolicPhase tool destination dest aliases srcFile doc fs =
        .ok (fs2, ev, fl) →
      fs2.lookup p = fs.lookup p := by
  intro fs2 ev fl
  rw [symbolicPhase]
  by_cases hpres : tool.present = true
  · rw [if_neg (by simp [hpres])]
    rcases hmk : fs.mkdirP (symParent destination dest) with ⟨f1, e1⟩
    have h1 : f1.lookup p = fs.lookup p := by
      have := FS.lookup_mkdirP_ne fs p (symParent destination dest)
        (ne_of_not_under p _ destination (under_symParent destination dest)
          hp)
      rw [hmk] at this
      exact this
    have tail : ∀ (fx : FS) (c : Content),
        fx.lookup p = fs.lookup p →
        (linkAliases ((globZero
              (fx.set (symFile destination dest) (.file (tool.minify c)))
              destination dest).foldl FS.remove
            (fx.set (symFile destination dest) (.file (tool.minify c))))
          (symFile destination dest)
          (aliases.map (symFile destination))).1.lookup p =
            fs.lookup p := by
      intro fx c hx
      rw [linkAliases_lookup_outside _ _ _ _ ?hap]
      case hap =>
        intro ap hap
        obtain ⟨d, -, hd⟩ := List.mem_map.mp hap
        subst hd
        exact ⟨ne_of_not_under p _ destination (under_symFile destination d)
            hp,
          ne_of_not_under p _ destination
            (under_symFile_dropLast destination d) hp⟩
      have hnot : p ∉ globZero
          (fx.set (symFile destination dest) (.file (tool.minify c)))
          destination dest := by
        intro hc
        have := globZero_under _ _ _ _ hc
        rw [hp] at this
        cases this
      rw [FS.lookup_foldl_remove_notmem _ _ _ hnot,
        FS.lookup_set_ne _ _ _ _
          (ne_of_not_under p _ destination (under_symFile destination dest)
            hp),
        hx]
    cases hrun : tool.run doc with
    | ok out =>
      simp only []
      cases hlook : (f1.set (symFile destination dest)
          (.file (.svg out))).lookup (symFile destination dest) with
      | none => intro h; exact absurd h (by simp)
      | some node =>
        cases node with
        | dir => intro h; exact absurd h (by simp)
        | link tgt => intro h; exact absurd h (by simp)
        | file c =>
          intro h
          injection h with h
          injection h with h1x h
          rw [← h1x]
          apply tail _ c
          rw [FS.lookup_set_ne _ _ _ _
            (ne_of_not_under p _ destination
              (under_symFile destination dest) hp), h1]
    | fail wrote =>
      cases wrote with
      | some o =>
        simp only []
        cases hlook : (f1.set (symFile destination dest)
            (.file (.svg o))).lookup (symFile destination dest) with
        | none => intro h; exact absurd h (by simp)
        | some node =>
          cases node with
          | dir => intro h; exact absurd h (by simp)
          | link tgt => intro h; exact absurd h (by simp)
          | file c =>
            intro h
            injection h with h
            injection h with h1x h
            rw [← h1x]
            apply tail _ c
            rw [FS.lookup_set_ne _ _ _ _
              (ne_of_not_under p _ destination
                (under_symFile destination dest) hp), h1]
      | none =>
        simp only []
        cases hlook : f1.lookup (symFile destination dest) with
        | none => intro h; exact absurd h (by simp)
        | some node =>
          cases node with
          | dir => intro h; exact absurd h (by simp)
          | link tgt => intro h; exact absurd h (by simp)
          | file c =>
            intro h
            injection h with h
            injection h with h1x h
            rw [← h1x]
            exact tail _ c h1
  · rw [if_pos (by simp [Bool.not_eq_true] at hpres ⊢; exact hpres)]
    intro h
    injection h with h
    injection h with h1x h
    rw [← h1x]

theorem processEntry_exists_mono (tool : Tool) (cfg : GeneratorEntry)
    (destination : FPath) (entry : String) (dests : List FPath) (fs : FS)
    (p : FPath) (hsafe : lastEndsWith dot0svg p = false)
    (hex : fs.pathExists p = true) :
    ∀ fs2 ev fl,
      processEntry tool cfg destination entry dests fs = .ok (fs2, ev, fl) →
      fs2.pathExists p = true := by
  intro fs2 ev fl h
  cases hall : dests.all
      (fun d => fs.pathExists (scalFile destination d)) with
  | true =>
    simp only [processEntry, hall, if_true] at h
    simp only [Except.ok.injEq, Prod.mk.injEq] at h
    obtain ⟨h1x, -, -⟩ := h
    rw [← h1x]
    exact hex
  | false =>
    simp only [processEntry, hall, Bool.false_eq_true, if_false] at h
    cases dests with
    | nil =>
      dsimp only at h
      simp only [Except.ok.injEq, Prod.mk.injEq] at h
      obtain ⟨h1x, -, -⟩ := h
      rw [← h1x]
      exact hex
    | cons dest aliases =>
      dsimp only at h
      have hmono1 : (fs.mkdirP (scalParent destination dest)).1.pathExists
          p = true :=
        FS.pathExists_mkdirP_mono fs p (scalParent destination dest) hex
      split at h
      · simp only [Except.ok.injEq, Prod.mk.injEq] at h
        obtain ⟨h1x, -, -⟩ := h
        rw [← h1x]
        exact hmono1
      · rename_i srcFile hres
        split at h
        · rename_i doc hlook
          split at h
          · simp only [Except.ok.injEq, Prod.mk.injEq] at h
            obtain ⟨h1x, -, -⟩ := h
            rw [← h1x]
            exact hmono1
          · rename_i tdoc htr
            split at h
            · exact absurd h (by simp)
            · rename_i r fs4 ev4 fails hsym
              simp only [Except.ok.injEq, Prod.mk.injEq] at h
              obtain ⟨h1x, -, -⟩ := h
              rw [← h1x]
              apply symbolicPhase_exists_mono tool destination dest aliases
                srcFile tdoc _ p hsafe _ fs4 ev4 fails hsym
              apply linkAliases_exists_mono
              exact FS.pathExists_set_mono _ _ _ _ hmono1
        · exact absurd h (by simp)

theorem processEntry_lookup_outside (tool : Tool) (cfg : GeneratorEntry)
    (destination : FPath) (entry : String) (dests : List FPath) (fs : FS)
    (p : FPath) (hp : destination.isPrefixOf p = false) :
    ∀ fs2 ev fl,
      processEntry tool cfg destination entry dests fs = .ok (fs2, ev, fl) →
      fs2.lookup p = fs.lookup p := by
  intro fs2 ev fl h
  cases hall : dests.all
      (fun d => fs.pathExists (scalFile destination d)) with
  | true =>
    simp only [processEntry, hall, if_true] at h
    simp only [Except.ok.injEq, Prod.mk.injEq] at h
    obtain ⟨h1x, -, -⟩ := h
    rw [← h1x]
  | false =>
    simp only [processEntry, hall, Bool.false_eq_true, if_false] at h
    cases dests with
    | nil =>
      dsimp only at h
      simp only [Except.ok.injEq, Prod.mk.injEq] at h
      obtain ⟨h1x, -, -⟩ := h
      rw [← h1x]
    | cons dest aliases =>
      dsimp only at h
      have hout1 : (fs.mkdirP (scalParent destination dest)).1.lookup p =
          fs.lookup p :=
        FS.lookup_mkdirP_ne fs p (scalParent destination dest)
          (ne_of_not_under p _ destination
            (under_scalParent destination dest) hp)
      split at h
      · simp only [Except.ok.injEq, Prod.mk.injEq] at h
        obtain ⟨h1x, -, -⟩ := h
        rw [← h1x]
        exact hout1
      · rename_i srcFile hres
        split at h
        · rename_i doc hlook
          split at h
          · simp only [Except.ok.injEq, Prod.mk.injEq] at h
            obtain ⟨h1x, -, -⟩ := h
            rw [← h1x]
            exact hout1
          · rename_i tdoc htr
            split at h
            · exact absurd h (by simp)
            · rename_i r fs4 ev4 fails hsym
              simp only [Except.ok.injEq, Prod.mk.injEq] at h
              obtain ⟨h1x, -, -⟩ := h
              rw [← h1x]
              rw [symbolicPhase_lookup_outside tool destination dest aliases
                srcFile tdoc _ p hp fs4 ev4 fails hsym]
              rw [linkAliases_lookup_outside _ _ _ _ ?hap]
              case hap =>
                intro ap hap
                obtain ⟨d, -, hd⟩ := List.mem_map.mp hap
                subst hd
                exact ⟨ne_of_not_under p _ destination
                    (under_scalFile destination d) hp,
                  ne_of_not_under p _ destination
                    (under_scalFile_dropLast destination d) hp⟩
              rw [FS.lookup_set_ne _ _ _ _
                (ne_of_not_under p _ destination
                  (under_scalFile destination dest) hp), hout1]
        · exact absurd h (by simp)

theorem resolveSrc_congr (fs1 fs2 : FS) (srcPaths : List FPath)
    (entry : String)
    (h : ∀ dir ∈ srcPaths, ∀ name : String,
      fs1.pathExists (srcCand dir name) = fs2.pathExists (srcCand dir name)) :
    resolveSrc fs1 srcPaths entry = resolveSrc fs2 srcPaths entry := by
  rw [resolveSrc, resolveSrc,
    find?_congruent srcPaths _ _ (fun d hd => h d hd entry),
    find?_congruent srcPaths _ _ (fun d hd => h d hd (hyphenate entry))]

theorem resolveSrc_shape (fs : FS) (srcPaths : List FPath) (entry : String)
    (sp : FPath) (h : resolveSrc fs srcPaths entry = some sp) :
    ∃ dir ∈ srcPaths,
      sp = srcCand dir entry ∨ sp = srcCand dir (hyphenate entry) := by
  rw [resolveSrc] at h
  cases h1 : srcPaths.find? (fun d => fs.pathExists (srcCand d entry)) with
  | some d =>
    rw [h1] at h
    injection h with h
    exact ⟨d, List.mem_of_find?_eq_some h1, Or.inl h.symm⟩
  | none =>
    rw [h1] at h
    cases h2 : srcPaths.find?
        (fun d => fs.pathExists (srcCand d (hyphenate entry))) with
    | some d =>
      rw [h2] at h
      injection h with h
      exact ⟨d, List.mem_of_find?_eq_some h2, Or.inr h.symm⟩
    | none =>
      rw [h2] at h
      cases h

theorem transformDoc_none_iff (cfg : GeneratorEntry) (doc : SvgDoc) :
    transformDoc cfg doc = none ↔ doc.styleText = none := by
  cases hst : doc.styleText <;> simp [transformDoc, hst]

/-- Settledness transfers along any later processing step that can only
grow the artifact tree (restricted to safe paths under the destination)
and does not touch the source area. -/
theorem settled_transfer (cfg : GeneratorEntry) (destination : FPath)
    (f g : FS) (dests : List FPath) (entry : String)
    (hdok : ∀ d ∈ dests, destOk d = true)
    (hmono : ∀ q, destination.isPrefixOf q = true →
      lastEndsWith dot0svg q = false →
      f.pathExists q = true → g.pathExists q = true)
    (hsrc : ∀ dir ∈ cfg.srcPaths, ∀ name : String,
      g.lookup (srcCand dir name) = f.lookup (srcCand dir name))
    (hs : EntrySettled cfg destination f dests entry) :
    EntrySettled cfg destination g dests entry := by
  have hresEq : resolveSrc g cfg.srcPaths entry =
      resolveSrc f cfg.srcPaths entry :=
    resolveSrc_congr g f _ _ (fun dir hdir name => by
      rw [FS.pathExists, FS.pathExists, hsrc dir hdir name])
  rcases hs with hA | ⟨dest, aliases, hde, hpar, hBC⟩
  · left
    intro d hd
    exact hmono _ (under_scalFile destination d)
      (safe_scalFile destination d (hdok d hd)) (hA d hd)
  · right
    refine ⟨dest, aliases, hde, ?_, ?_⟩
    · exact hmono _ (under_scalParent destination dest)
        (safe_scalParent destination dest
          (hdok dest (hde ▸ List.mem_cons_self dest aliases))) hpar
    · rcases hBC with hB | ⟨sp, doc, hsp, hlook, hst⟩
      · left
        rw [hresEq]
        exact hB
      · right
        refine ⟨sp, doc, by rw [hresEq]; exact hsp, ?_, hst⟩
        rcases resolveSrc_shape f _ _ _ hsp with ⟨dir, hdir, hform | hform⟩
          <;> rw [hform, hsrc dir hdir _, ← hform, hlook]

/-- Processing an entry leaves it settled in the resulting filesystem. -/
theorem processEntry_settles (tool : Tool) (cfg : GeneratorEntry)
    (destination : FPath) (entry : String) (dests : List FPath) (fs : FS)
    (hdok : ∀ d ∈ dests, destOk d = true) :
    ∀ fs2 ev fl,
      processEntry tool cfg destination entry dests fs = .ok (fs2, ev, fl) →
      EntrySettled cfg destination fs2 dests entry := by
  intro fs2 ev fl h
  cases hall : dests.all
      (fun d => fs.pathExists (scalFile destination d)) with
  | true =>
    simp only [processEntry, hall, if_true] at h
    simp only [Except.ok.injEq, Prod.mk.injEq] at h
    obtain ⟨h1x, -, -⟩ := h
    rw [← h1x]
    left
    intro d hd
    exact List.all_eq_true.mp hall d hd
  | false =>
    simp only [processEntry, hall, Bool.false_eq_true, if_false] at h
    cases dests with
    | nil =>
      left
      intro d hd
      cases hd
    | cons dest aliases =>
      dsimp only at h
      split at h
      · rename_i hres
        simp only [Except.ok.injEq, Prod.mk.injEq] at h
        obtain ⟨h1x, -, -⟩ := h
        rw [← h1x]
        right
        exact ⟨dest, aliases, rfl, FS.mkdirP_exists_self _ _, Or.inl hres⟩
      · rename_i srcFile hres
        split at h
        · rename_i doc hlook
          split at h
          · rename_i htr
            simp only [Except.ok.injEq, Prod.mk.injEq] at h
            obtain ⟨h1x, -, -⟩ := h
            rw [← h1x]
            right
            exact ⟨dest, aliases, rfl, FS.mkdirP_exists_self _ _,
              Or.inr ⟨srcFile, doc, hres, hlook,
                (transformDoc_none_iff cfg doc).mp htr⟩⟩
          · rename_i tdoc htr
            split at h
            · exact absurd h (by simp)
            · rename_i r fs4 ev4 fails hsym
              simp only [Except.ok.injEq, Prod.mk.injEq] at h
              obtain ⟨h1x, -, -⟩ := h
              rw [← h1x]
              left
              intro d hd
              have hsafe : lastEndsWith dot0svg (scalFile destination d) =
                  false := safe_scalFile destination d (hdok d hd)
              have hpre : (linkAliases
                  ((fs.mkdirP (scalParent destination dest)).1.set
                    (scalFile destination dest) (.file (.svg tdoc)))
                  (scalFile destination dest)
                  (aliases.map (scalFile destination))).1.pathExists
                    (scalFile destination d) = true := by
                rcases List.mem_cons.mp hd with hde | hde
                · subst hde
                  apply linkAliases_exists_mono
                  exact FS.pathExists_set_self _ _ _
                · exact linkAliases_targets_exist _ _ _ _
                    (List.mem_map_of_mem _ hde)
              exact symbolicPhase_exists_mono tool destination dest aliases
                srcFile tdoc _ _ hsafe hpre fs4 ev4 fails hsym
        · exact absurd h (by simp)

theorem generateDestination_props (tool : Tool) (cfg : GeneratorEntry)
    (destination : FPath) :
    ∀ (mapping : List (String × List FPath)) (fs fs2 : FS)
      (ev : List Event) (fl : List FPath),
      generateDestination tool cfg destination mapping fs = .ok (fs2, ev, fl) →
      (∀ md ∈ mapping, ∀ d ∈ md.2, destOk d = true) →
      (∀ dir ∈ cfg.srcPaths, ∀ name : String,
        destination.isPrefixOf (srcCand dir name) = false) →
      (∀ p, destination.isPrefixOf p = false → fs2.lookup p = fs.lookup p) ∧
      (∀ q, lastEndsWith dot0svg q = false → fs.pathExists q = true →
        fs2.pathExists q = true) ∧
      (∀ md ∈ mapping, EntrySettled cfg destination fs2 md.2 md.1) := by
  intro mapping
  induction mapping with
  | nil =>
    intro fs fs2 ev fl h _ _
    simp only [generateDestination, Except.ok.injEq, Prod.mk.injEq] at h
    obtain ⟨h1x, -, -⟩ := h
    rw [← h1x]
    exact ⟨fun p _ => rfl, fun q _ hq => hq, fun md hmd => absurd hmd (by simp)⟩
  | cons md rest ih =>
    intro fs fs2 ev fl h hdok hsrcout
    rcases md with ⟨entry, dests⟩
    simp only [generateDestination] at h
    split at h
    · exact absurd h (by simp)
    · rename_i f1 e1 l1 hpe
      split at h
      · exact absurd h (by simp)
      · rename_i f2 e2 l2 hgd
        simp only [Except.ok.injEq, Prod.mk.injEq] at h
        obtain ⟨h1x, -, -⟩ := h
        rw [← h1x]
        have hdokrest : ∀ m ∈ rest, ∀ d ∈ m.2, destOk d = true :=
          fun m hm => hdok m (List.mem_cons_of_mem _ hm)
        have hdokhead : ∀ d ∈ dests, destOk d = true :=
          fun d hd => hdok (entry, dests) (List.mem_cons_self _ _) d hd
        obtain ⟨ihL, ihM, ihS⟩ := ih f1 f2 e2 l2 hgd hdokrest hsrcout
        have peL : ∀ p, destination.isPrefixOf p = false →
            f1.lookup p = fs.lookup p :=
          fun p hp => processEntry_lookup_outside tool cfg destination entry
            dests fs p hp f1 e1 l1 hpe
        have peM : ∀ q, lastEndsWith dot0svg q = false →
            fs.pathExists q = true → f1.pathExists q = true :=
          fun q hq hex => processEntry_exists_mono tool cfg destination entry
            dests fs q hq hex f1 e1 l1 hpe
        refine ⟨?_, ?_, ?_⟩
        · intro p hp
          rw [ihL p hp, peL p hp]
        · intro q hq hex
          exact ihM q hq (peM q hq hex)
        · intro m hm
          rcases List.mem_cons.mp hm with hme | hme
          · subst hme
            have hsettled1 : EntrySettled cfg destination f1 dests entry :=
              processEntry_settles tool cfg destination entry dests fs
                hdokhead f1 e1 l1 hpe
            exact settled_transfer cfg destination f1 f2 dests entry
              hdokhead (fun q _ hqs hqe => ihM q hqs hqe)
              (fun dir hdir name => ihL _ (hsrcout dir hdir name)) hsettled1
          · exact ihS m hme

theorem processEntry_noop (tool : Tool) (cfg : GeneratorEntry)
    (destination : FPath) (entry : String) (dests : List FPath) (fs : FS)
    (hs : EntrySettled cfg destination fs dests entry) :
    ∃ ev, processEntry tool cfg destination entry dests fs = .ok (fs, ev, []) ∧
      ev.filter Event.isWrite = [] := by
  by_cases hall : dests.all
      (fun d => fs.pathExists (scalFile destination d)) = true
  · exact ⟨[.skippedE entry], by simp only [processEntry, hall, if_true], rfl⟩
  · have hallf : dests.all
        (fun d => fs.pathExists (scalFile destination d)) = false := by
      cases hb : dests.all (fun d => fs.pathExists (scalFile destination d))
      · rfl
      · exact absurd hb hall
    rcases hs with hex | ⟨dest, aliases, hde, hpar, hres⟩
    · exact absurd (List.all_eq_true.mpr hex) hall
    · subst hde
      have hmk : fs.mkdirP (scalParent destination dest) = (fs, []) := by
        rw [FS.mkdirP, if_pos hpar]
      rcases hres with hnone | ⟨sp, doc, hsp, hlook, hst⟩
      · refine ⟨[Event.resolveE entry, Event.srcNotFoundE entry], ?_, rfl⟩
        simp only [processEntry, hallf, Bool.false_eq_true, if_false, hmk,
          hnone, List.nil_append, List.singleton_append]
      · have htr : transformDoc cfg doc = none :=
          (transformDoc_none_iff cfg doc).mpr hst
        refine ⟨[Event.resolveE entry, Event.styleMissingE entry], ?_, rfl⟩
        simp only [processEntry, hallf, Bool.false_eq_true, if_false, hmk,
          hsp, hlook, htr, List.nil_append, List.singleton_append]

theorem generateDestination_noop (tool : Tool) (cfg : GeneratorEntry)
    (destination : FPath) :
    ∀ (mapping : List (String × List FPath)) (fs : FS),
      (∀ md ∈ mapping, EntrySettled cfg destination fs md.2 md.1) →
      ∃ ev,
        generateDestination tool cfg destination mapping fs = .ok (fs, ev, []) ∧
        ev.filter Event.isWrite = [] := by
  intro mapping
  induction mapping with
  | nil => intro fs _; exact ⟨[], rfl, rfl⟩
  | cons md rest ih =>
    intro fs hs
    rcases md with ⟨entry, dests⟩
    obtain ⟨e1, hpe, hf1⟩ := processEntry_noop tool cfg destination entry
      dests fs (hs _ (List.mem_cons_self _ _))
    obtain ⟨e2, hgd, hf2⟩ := ih fs (fun m hm => hs m (List.mem_cons_of_mem _ hm))
    refine ⟨e1 ++ e2, ?_, ?_⟩
    · simp only [generateDestination, hpe, hgd, List.append_nil]
    · rw [List.filter_append, hf1, hf2]
      rfl

theorem linkSizesGo_exists_mono (destination : FPath) :
    ∀ (folders : List String) (fs : FS) (p : FPath),
      fs.pathExists p = true →
      (linkSizesGo destination fs folders).1.pathExists p = true := by
  intro folders
  induction folders with
  | nil => intro fs p h; exact h
  | cons folder rest ih =>
    intro fs p h
    by_cases hex : fs.pathExists (destination ++ [folder]) = true
    · rw [linkSizesGo, if_pos hex]
      exact ih fs p h
    · rw [linkSizesGo, if_neg hex]
      rcases hrec : linkSizesGo destination
          (fs.set (destination ++ [folder]) (.link ["scalable"])) rest
        with ⟨f1, e1⟩
      dsimp only
      have := ih (fs.set (destination ++ [folder]) (.link ["scalable"])) p
        (FS.pathExists_set_mono fs p _ _ h)
      rw [hrec] at this
      exact this

theorem linkSizesGo_lookup_ne (destination : FPath) :
    ∀ (folders : List String) (fs : FS) (p : FPath),
      (∀ folder ∈ folders, ¬ p = destination ++ [folder]) →
      (linkSizesGo destination fs folders).1.lookup p = fs.lookup p := by
  intro folders
  induction folders with
  | nil => intro fs p _; rfl
  | cons folder rest ih =>
    intro fs p hne
    have hnehd : ¬ p = destination ++ [folder] :=
      hne folder (List.mem_cons_self _ _)
    have hnetl : ∀ f ∈ rest, ¬ p = destination ++ [f] :=
      fun f hf => hne f (List.mem_cons_of_mem _ hf)
    by_cases hex : fs.pathExists (destination ++ [folder]) = true
    · rw [linkSizesGo, if_pos hex]
      exact ih fs p hnetl
    · rw [linkSizesGo, if_neg hex]
      rcases hrec : linkSizesGo destination
          (fs.set (destination ++ [folder]) (.link ["scalable"])) rest
        with ⟨f1, e1⟩
      dsimp only
      have := ih (fs.set (destination ++ [folder]) (.link ["scalable"])) p hnetl
      rw [hrec] at this
      dsimp only at this
      rw [this, FS.lookup_set_ne _ _ _ _ hnehd]

theorem linkSizesGo_targets (destination : FPath) :
    ∀ (folders : List String) (fs : FS), ∀ folder ∈ folders,
      (linkSizesGo destination fs folders).1.pathExists
        (destination ++ [folder]) = true := by
  intro folders
  induction folders with
  | nil => intro fs folder hf; cases hf
  | cons f0 rest ih =>
    intro fs folder hf
    by_cases hex : fs.pathExists (destination ++ [f0]) = true
    · rw [linkSizesGo, if_pos hex]
      rcases List.mem_cons.mp hf with hfe | hfe
      · subst hfe
        exact linkSizesGo_exists_mono destination rest fs _ hex
      · exact ih fs folder hfe
    · rw [linkSizesGo, if_neg hex]
      rcases hrec : linkSizesGo destination
          (fs.set (destination ++ [f0]) (.link ["scalable"])) rest
        with ⟨f1, e1⟩
      dsimp only
      rcases List.mem_cons.mp hf with hfe | hfe
      · subst hfe
        have := linkSizesGo_exists_mono destination rest
          (fs.set (destination ++ [folder]) (.link ["scalable"]))
          (destination ++ [folder]) (FS.pathExists_set_self _ _ _)
        rw [hrec] at this
        exact this
      · have := ih (fs.set (destination ++ [f0]) (.link ["scalable"]))
          folder hfe
        rw [hrec] at this
        exact this

theorem linkSizesGo_noop (destination : FPath) :
    ∀ (folders : List String) (fs : FS),
      (∀ folder ∈ folders, fs.pathExists (destination ++ [folder]) = true) →
      linkSizesGo destination fs folders = (fs, []) := by
  intro folders
  induction folders with
  | nil => intro fs _; rfl
  | cons folder rest ih =>
    intro fs hall
    rw [linkSizesGo, if_pos (hall folder (List.mem_cons_self _ _))]
    exact ih fs (fun f hf => hall f (List.mem_cons_of_mem _ hf))

theorem index_ne_size (sect : String) (folder : String)
    (hf : folder ∈ sizeFolders) :
    ¬ ([sect] : FPath) ++ ["index.theme"] = [sect] ++ [folder] := by
  intro hc
  simp only [List.cons_append, List.nil_append, List.cons.injEq] at hc
  have : ∀ f ∈ sizeFolders, ¬ ("index.theme" : String) = f := by decide
  exact this folder hf hc.2.1

theorem sectionSettled_transfer (mapping : List (String × List FPath))
    (sect : String) (cfg : GeneratorEntry) (f g : FS)
    (hl : ∀ p, ([sect] : FPath).isPrefixOf p = true → g.lookup p = f.lookup p)
    (hsrcl : ∀ dir ∈ cfg.srcPaths, ∀ name : String,
      g.lookup (srcCand dir name) = f.lookup (srcCand dir name))
    (hdok : ∀ md ∈ mapping, ∀ d ∈ md.2, destOk d = true)
    (hs : SectionSettled mapping sect cfg f) :
    SectionSettled mapping sect cfg g := by
  obtain ⟨hent, hidx, hsz⟩ := hs
  refine ⟨?_, ?_, ?_⟩
  · intro md hmd
    exact settled_transfer cfg [sect] f g md.2 md.1 (hdok md hmd)
      (fun q hq _ hqe => by
        rw [FS.pathExists_congr g f q (hl q hq)]; exact hqe)
      (fun dir hdir name => hsrcl dir hdir name)
      (hent md hmd)
  · rw [hl _ (under_append [sect] ["index.theme"]), hidx]
  · intro folder hfo
    rw [FS.pathExists_congr g f _ (hl _ (under_append [sect] [folder]))]
    exact hsz folder hfo

theorem processSection_props (tool : Tool)
    (mapping : List (String × List FPath)) (sect : String)
    (cfg : GeneratorEntry) (fs fs3 : FS) (ev : List Event) (fl : List FPath)
    (how : cfg.overwrite = false)
    (hdok : ∀ md ∈ mapping, ∀ d ∈ md.2, destOk d = true)
    (hsrcout : ∀ dir ∈ cfg.srcPaths, ∀ name : String,
      ([sect] : FPath).isPrefixOf (srcCand dir name) = false)
    (h : processSection tool mapping sect cfg fs = .ok (fs3, ev, fl)) :
    (∀ p, ([sect] : FPath).isPrefixOf p = false → fs3.lookup p = fs.lookup p) ∧
    (∀ q, lastEndsWith dot0svg q = false → fs.pathExists q = true →
      fs3.pathExists q = true) ∧
    SectionSettled mapping sect cfg fs3 := by
  simp only [processSection, how, Bool.false_eq_true, if_false,
    generateIndexTheme, linkSizes] at h
  split at h
  · exact absurd h (by simp)
  · rename_i f1 e1 l1 hgd
    rcases hls : linkSizesGo [sect]
        (f1.set ([sect] ++ ["index.theme"])
          (.file (.theme cfg.name cfg.comment cfg.inherits)))
        sizeFolders with ⟨fL, eL⟩
    rw [hls] at h
    dsimp only at h
    simp only [Except.ok.injEq, Prod.mk.injEq] at h
    obtain ⟨h1x, -, -⟩ := h
    rw [← h1x]
    obtain ⟨gdL, gdM, gdS⟩ := generateDestination_props tool cfg [sect]
      mapping fs f1 e1 l1 hgd hdok hsrcout
    have lsL : ∀ p, (∀ folder ∈ sizeFolders, ¬ p = [sect] ++ [folder]) →
        fL.lookup p = (f1.set ([sect] ++ ["index.theme"])
          (.file (.theme cfg.name cfg.comment cfg.inherits))).lookup p := by
      intro p hp
      have := linkSizesGo_lookup_ne [sect] sizeFolders
        (f1.set ([sect] ++ ["index.theme"])
          (.file (.theme cfg.name cfg.comment cfg.inherits))) p hp
      rw [hls] at this
      exact this
    have lsM : ∀ p, (f1.set ([sect] ++ ["index.theme"])
          (.file (.theme cfg.name cfg.comment cfg.inherits))).pathExists p =
          true → fL.pathExists p = true := by
      intro p hp
      have := linkSizesGo_exists_mono [sect] sizeFolders
        (f1.set ([sect] ++ ["index.theme"])
          (.file (.theme cfg.name cfg.comment cfg.inherits))) p hp
      rw [hls] at this
      exact this
    have outL : ∀ p, ([sect] : FPath).isPrefixOf p = false →
        fL.lookup p = f1.lookup p := by
      intro p hp
      rw [lsL p (fun folder hfo =>
            ne_of_not_under p _ [sect] (under_append [sect] [folder]) hp),
        FS.lookup_set_ne _ _ _ _
          (ne_of_not_under p _ [sect] (under_append [sect] ["index.theme"]) hp)]
    refine ⟨?_, ?_, ?_, ?_, ?_⟩
    · intro p hp
      rw [outL p hp, gdL p hp]
    · intro q hq hex
      exact lsM q (FS.pathExists_set_mono _ _ _ _ (gdM q hq hex))
    · intro md hmd
      refine settled_transfer cfg [sect] f1 fL md.2 md.1 (hdok md hmd)
        (fun q _ _ hqe => lsM q (FS.pathExists_set_mono _ _ _ _ hqe))
        (fun dir hdir name => outL _ (hsrcout dir hdir name))
        (gdS md hmd)
    · rw [lsL _ (fun folder hfo => index_ne_size sect folder hfo),
        FS.lookup_set_self]
    · intro folder hfo
      have := linkSizesGo_targets [sect] sizeFolders
        (f1.set ([sect] ++ ["index.theme"])
          (.file (.theme cfg.name cfg.comment cfg.inherits))) folder hfo
      rw [hls] at this
      exact this

theorem processSection_noop (tool : Tool)
    (mapping : List (String × List FPath)) (sect : String)
    (cfg : GeneratorEntry) (fs : FS)
    (how : cfg.overwrite = false)
    (hs : SectionSettled mapping sect cfg fs) :
    ∃ ev, processSection tool mapping sect cfg fs = .ok (fs, ev, []) ∧
      ev.filter Event.isWrite = [Event.writeE ([sect] ++ ["index.theme"])] := by
  obtain ⟨hent, hidx, hsz⟩ := hs
  obtain ⟨e1, hgd, hf1⟩ :=
    generateDestination_noop tool cfg [sect] mapping fs hent
  have hset : fs.set ([sect] ++ ["index.theme"])
      (.file (.theme cfg.name cfg.comment cfg.inherits)) = fs :=
    FS.set_same fs _ _ hidx
  have hls : linkSizesGo [sect] fs sizeFolders = (fs, []) :=
    linkSizesGo_noop [sect] sizeFolders fs hsz
  refine ⟨e1 ++ [Event.writeE ([sect] ++ ["index.theme"])], ?_, ?_⟩
  · simp only [processSection, how, Bool.false_eq_true, if_false,
      generateIndexTheme, linkSizes, hgd, hset, hls, List.nil_append,
      List.append_nil]
  · rw [List.filter_append, hf1, List.nil_append]
    rfl

theorem mainGo_props (tool : Tool) (mapping : List (String × List FPath))
    (hdok : ∀ md ∈ mapping, ∀ d ∈ md.2, destOk d = true) :
    ∀ (config : List (String × GeneratorEntry)) (fs fs2 : FS)
      (ev : List Event) (fl : List FPath),
      mainRun.go tool mapping config fs = .ok (fs2, ev, fl) →
      (∀ s ∈ config, s.2.overwrite = false) →
      (config.map Prod.fst).Nodup →
      (∀ s ∈ config, ∀ dir ∈ s.2.srcPaths, ∀ name : String,
        ∀ s' ∈ config,
          ([s'.1] : FPath).isPrefixOf (srcCand dir name) = false) →
      (∀ p, (∀ s ∈ config, ([s.1] : FPath).isPrefixOf p = false) →
        fs2.lookup p = fs.lookup p) ∧
      (∀ q, lastEndsWith dot0svg q = false → fs.pathExists q = true →
        fs2.pathExists q = true) ∧
      (∀ s ∈ config, SectionSettled mapping s.1 s.2 fs2) := by
  intro config
  induction config with
  | nil =>
    intro fs fs2 ev fl h _ _ _
    simp only [mainRun.go, Except.ok.injEq, Prod.mk.injEq] at h
    obtain ⟨h1x, -, -⟩ := h
    rw [← h1x]
    exact ⟨fun p _ => rfl, fun q _ hq => hq, fun s hs => absurd hs (by simp)⟩
  | cons sc rest ih =>
    intro fs fs2 ev fl h how hnd hsrc
    rcases sc with ⟨sect, cfg⟩
    simp only [mainRun.go] at h
    split at h
    · exact absurd h (by simp)
    · rename_i f1 e1 l1 hps
      split at h
      · exact absurd h (by simp)
      · rename_i f2 e2 l2 hgo
        simp only [Except.ok.injEq, Prod.mk.injEq] at h
        obtain ⟨h1x, -, -⟩ := h
        rw [← h1x]
        have howh : cfg.overwrite = false :=
          how (sect, cfg) (List.mem_cons_self _ _)
        have hsrch : ∀ dir ∈ cfg.srcPaths, ∀ name : String,
            ([sect] : FPath).isPrefixOf (srcCand dir name) = false :=
          fun dir hdir name =>
            hsrc (sect, cfg) (List.mem_cons_self _ _) dir hdir name
              (sect, cfg) (List.mem_cons_self _ _)
        obtain ⟨psL, psM, psS⟩ := processSection_props tool mapping sect cfg
          fs f1 e1 l1 howh hdok hsrch hps
        have howr : ∀ s ∈ rest, s.2.overwrite = false :=
          fun s hs => how s (List.mem_cons_of_mem _ hs)
        have hndr : (rest.map Prod.fst).Nodup := by
          simp only [List.map_cons, List.nodup_cons] at hnd
          exact hnd.2
        have hsectout : sect ∉ rest.map Prod.fst := by
          simp only [List.map_cons, List.nodup_cons] at hnd
          exact hnd.1
        have hsrcr : ∀ s ∈ rest, ∀ dir ∈ s.2.srcPaths, ∀ name : String,
            ∀ s' ∈ rest,
              ([s'.1] : FPath).isPrefixOf (srcCand dir name) = false :=
          fun s hs dir hdir name s' hs' =>
            hsrc s (List.mem_cons_of_mem _ hs) dir hdir name s'
              (List.mem_cons_of_mem _ hs')
        obtain ⟨goL, goM, goS⟩ := ih f1 f2 e2 l2 hgo howr hndr hsrcr
        have hunder : ∀ p, ([sect] : FPath).isPrefixOf p = true →
            ∀ s' ∈ rest, ([s'.1] : FPath).isPrefixOf p = false := by
          intro p hp s' hs'
          cases p with
          | nil => simp [List.isPrefixOf] at hp
          | cons p0 pt =>
            simp only [List.isPrefixOf, Bool.and_eq_true, beq_iff_eq] at hp
            simp only [List.isPrefixOf, Bool.and_true, beq_eq_false_iff_ne]
            intro hc
            apply hsectout
            rw [hp.1, ← hc]
            exact List.mem_map_of_mem Prod.fst hs'
        refine ⟨?_, ?_, ?_⟩
        · intro p hall
          rw [goL p (fun s' hs' => hall s' (List.mem_cons_of_mem _ hs')),
            psL p (hall (sect, cfg) (List.mem_cons_self _ _))]
        · intro q hq hex
          exact goM q hq (psM q hq hex)
        · intro s hs
          rcases List.mem_cons.mp hs with hse | hse
          · subst hse
            refine sectionSettled_transfer mapping sect cfg f1 f2
              (fun p hp => goL p (hunder p hp))
              (fun dir hdir name => goL _ (fun s' hs' =>
                hsrc (sect, cfg) (List.mem_cons_self _ _) dir hdir name s'
                  (List.mem_cons_of_mem _ hs')))
              hdok psS
          · exact goS s hse

theorem mainGo_noop (tool : Tool) (mapping : List (String × List FPath)) :
    ∀ (config : List (String × GeneratorEntry)) (fs : FS),
      (∀ s ∈ config, s.2.overwrite = false) →
      (∀ s ∈ config, SectionSettled mapping s.1 s.2 fs) →
      ∃ ev, mainRun.go tool mapping config fs = .ok (fs, ev, []) ∧
        ev.filter Event.isWrite =
          config.map (fun sc => Event.writeE ([sc.1] ++ ["index.theme"])) := by
  intro config
  induction config with
  | nil => intro fs _ _; exact ⟨[], rfl, rfl⟩
  | cons sc rest ih =>
    intro fs how hs
    rcases sc with ⟨sect, cfg⟩
    obtain ⟨e1, hps, hf1⟩ := processSection_noop tool mapping sect cfg fs
      (how _ (List.mem_cons_self _ _)) (hs _ (List.mem_cons_self _ _))
    obtain ⟨e2, hgo, hf2⟩ := ih fs
      (fun s hsm => how s (List.mem_cons_of_mem _ hsm))
      (fun s hsm => hs s (List.mem_cons_of_mem _ hsm))
    refine ⟨e1 ++ e2, ?_, ?_⟩
    · simp only [mainRun.go, hps, hgo, List.append_nil]
    · rw [List.filter_append, hf1, hf2]
      rfl

/-- C3 counterexample: on the example fixtures (one theme `t` with
`overwrite` disabled, one mapping entry, one source icon) the first run
succeeds, and a second run over its output leaves the tree identical but
performs one filesystem write — `index.theme` is reopened and rewritten on
every run — so the claim's "the second run performs zero writes" is
false. -/
theorem c3_counterexample :
    mainRun toolOkId [("t", exCfg)] [("a", [["a"]])] exFS =
      .ok (c3run1fs, c3run1ev, []) ∧
    mainRun toolOkId [("t", exCfg)] [("a", [["a"]])] c3run1fs =
      .ok (c3run1fs, c3run2ev, []) ∧
    c3run2ev.filter Event.isWrite = [Event.writeE ["t", "index.theme"]] := by
  refine ⟨by decide, by decide, by decide⟩

/-- C3 (amended): with `overwrite` disabled everywhere, distinct section
names, well-formed mapping destinations and source directories disjoint
from every section root, a second run over the output of a successful run
leaves the filesystem identical, records no synthesis failures, and its
only writes are one `index.theme` rewrite per configured theme (none when
the external tool is absent, since then the whole run is aborted) — zero
artifact writes, but not the claim's zero writes. -/
theorem c3_idempotent_amended (tool : Tool)
    (config : List (String × GeneratorEntry))
    (mapping : List (String × List FPath)) (fs fs1 : FS)
    (ev1 : List Event) (fl1 : List FPath)
    (hok : mainRun tool config mapping fs = .ok (fs1, ev1, fl1))
    (how : ∀ s ∈ config, s.2.overwrite = false)
    (hnd : (config.map Prod.fst).Nodup)
    (hdok : ∀ md ∈ mapping, ∀ d ∈ md.2, destOk d = true)
    (hsrc : ∀ s ∈ config, ∀ dir ∈ s.2.srcPaths, ∀ name : String,
      ∀ s' ∈ config, ([s'.1] : FPath).isPrefixOf (srcCand dir name) = false) :
    ∃ ev2, mainRun tool config mapping fs1 = .ok (fs1, ev2, []) ∧
      ev2.filter Event.isWrite =
        (if tool.present then
          config.map (fun sc => Event.writeE [sc.1, "index.theme"])
         else []) := by
  by_cases hp : tool.present = true
  · have hok' : mainRun.go tool mapping config fs = .ok (fs1, ev1, fl1) := by
      simpa only [mainRun, hp, eq_self_iff_true, not_true, if_false]
        using hok
    obtain ⟨-, -, hsett⟩ := mainGo_props tool mapping hdok config fs fs1
      ev1 fl1 hok' how hnd hsrc
    obtain ⟨ev2, hgo, hf⟩ := mainGo_noop tool mapping config fs1 how hsett
    refine ⟨ev2, ?_, ?_⟩
    · simp only [mainRun, hp, eq_self_iff_true, not_true, if_false]
      exact hgo
    · rw [hf, if_pos hp]
      rfl
  · have hp' : tool.present = false := by
      cases hb : tool.present
      · rfl
      · exact absurd hb hp
    refine ⟨[], ?_, ?_⟩
    · simp only [mainRun, hp', Bool.false_eq_true, not_false_eq_true,
        if_true]
    · rw [if_neg hp]
      rfl

/-- C3 witness: the amended idempotence theorem applied to the example
fixtures — the second run returns the first run's filesystem unchanged and
its only write is the single `index.theme` rewrite. -/
theorem c3_idempotent_amended_witness :
    ∃ ev2, mainRun toolOkId [("t", exCfg)] [("a", [["a"]])] c3run1fs =
        .ok (c3run1fs, ev2, []) ∧
      ev2.filter Event.isWrite =
        (if toolOkId.present then
          ([("t", exCfg)] : List (String × GeneratorEntry)).map
            (fun sc => Event.writeE [sc.1, "index.theme"])
         else []) :=
  c3_idempotent_amended toolOkId [("t", exCfg)] [("a", [["a"]])] exFS
    c3run1fs c3run1ev [] (by decide) (by decide) (by decide) (by decide)
    (by
      intro s hs dir hdir name s' hs'
      simp only [List.mem_singleton] at hs hs'
      subst hs
      subst hs'
      simp only [exCfg, List.mem_singleton] at hdir
      subst hdir
      simp [srcCand, List.isPrefixOf])

end Arcticons
